import Mathlib

/-!
Verification of the swagger-mcp core (spec-to-tool translation engine and
runtime request materializer) against its natural-language specification.

The development shallowly embeds the Go source:
* `mcpserver` package (`ExtractSchemaName`, `compileRegexes`,
  `shouldIncludePath`, `shouldIncludeMethod`, `LoadSwaggerServer`,
  `setRequestSecurity`, `CreateMCPToolHandler`), and
* the `models` package data structures.

Modelling conventions:
* Go strings are modelled as Lean `String`, manipulated at the character
  level.  All inputs of interest are ASCII, where Go byte indices and
  character indices coincide.
* Go maps are modelled as association lists; one run's `range` over a Go
  map visits the entries in a per-run randomized order, which the model
  captures by quantifying over enumeration orders (the `MapEnum` relation
  below) wherever a claim depends on iteration order.
* Go nil pointers are `Option.none`; dereferencing `none` is a runtime
  panic, modelled by `Except.error`.
* Floating point values are abstracted by their (validated) source text;
  parse success/failure — including the `ErrRange` failure of
  `strconv.ParseFloat` on literals beyond float64 range, and its
  propagation through `json.Unmarshal` — is modelled exactly, but IEEE
  arithmetic on accepted values is not.
* The Go regexp engine is treated as an oracle: a compiled regular
  expression is a match function `String → Bool`, and compilation is a
  caller-supplied `String → Option (String → Bool)` (`none` = compile error).
-/

set_option maxRecDepth 4000
set_option exponentiation.threshold 1300

/-! ## Go character and string primitives -/

/-- `unicode.IsSpace` restricted to the ASCII range (the only characters the
repository ever feeds to `strings.TrimSpace`). -/
def goIsSpace (c : Char) : Bool :=
  c = ' ' || c = '\t' || c = '\n' || c = '\x0b' || c = '\x0c' || c = '\r'

/-- Split a character list around every occurrence of `sep`
(`strings.Split` with a one-character separator; every separator used by the
repository is one character). -/
def splitOnChar (sep : Char) : List Char → List (List Char)
  | [] => [[]]
  | c :: cs =>
    match splitOnChar sep cs with
    | [] => if c = sep then [[], []] else [[c]]
    | h :: t => if c = sep then [] :: h :: t else (c :: h) :: t

/-- `strings.Split s sep` for a one-character separator. -/
def goSplitChar (s : String) (sep : Char) : List String :=
  (splitOnChar sep s.data).map String.mk

/-- `strings.TrimSpace`. -/
def goTrimSpace (s : String) : String :=
  String.mk (((s.data.dropWhile goIsSpace).reverse.dropWhile goIsSpace).reverse)

/-- `strings.ToLower` (ASCII case folding; the repository only lowercases
ASCII configuration tokens). -/
def goToLower (s : String) : String := String.mk (s.data.map Char.toLower)

/-- `strings.ToUpper` (ASCII). -/
def goToUpper (s : String) : String := String.mk (s.data.map Char.toUpper)

/-- `strings.EqualFold` (ASCII simple case folding). -/
def goEqualFold (a b : String) : Bool := goToLower a == goToLower b

/-- `strings.HasPrefix`. -/
def goStartsWith (s pre : String) : Bool := pre.data.isPrefixOf s.data

/-- `strings.HasSuffix`. -/
def goEndsWith (s suf : String) : Bool := suf.data.isSuffixOf s.data

/-- `strings.TrimSuffix`: remove one trailing occurrence of `suf`, if present. -/
def goTrimSuffix (s suf : String) : String :=
  if goEndsWith s suf then String.mk (s.data.take (s.data.length - suf.data.length)) else s

/-- `strings.TrimPrefix`: remove one leading occurrence of `pre`, if present. -/
def goTrimLeading (s pre : String) : String :=
  if goStartsWith s pre then String.mk (s.data.drop pre.data.length) else s

/-- `strings.ReplaceAll` specialised to a one-character pattern (the tool
name derivation replaces `/`, `{` and `}`, all single characters). -/
def replaceAllChar (a : Char) (new : String) (s : String) : String :=
  String.mk (s.data.flatMap (fun c => if c = a then new.data else [c]))

/-- Character-list core of `strings.Replace s pat rep 1`. -/
def replaceFirstChars (pat rep : List Char) : List Char → List Char
  | [] => if pat.isPrefixOf ([] : List Char) then rep else []
  | c :: rest =>
    if pat.isPrefixOf (c :: rest) then rep ++ (c :: rest).drop pat.length
    else c :: replaceFirstChars pat rep rest

/-- `strings.Replace s pat rep 1`: replace the first occurrence only. -/
def goReplaceFirst (s pat rep : String) : String :=
  String.mk (replaceFirstChars pat.data rep.data s.data)

/-- `strings.Index s c` for a one-character substring; `none` models `-1`. -/
def charIndex (c : Char) : List Char → Option Nat
  | [] => none
  | x :: xs => if x = c then some 0 else (charIndex c xs).map (· + 1)

/-- `strings.SplitN s "=" 2`: split at the first `=` only.  Returns the
two pieces, or `none` when the separator does not occur (Go returns a
one-element slice in that case). -/
def goSplitN2 (s : String) (sep : Char) : Option (String × String) :=
  match charIndex sep s.data with
  | none => none
  | some i => some (String.mk (s.data.take i), String.mk (s.data.drop (i + 1)))

/-! ## Go strconv primitives -/

/-- Numeric value of a decimal digit list. -/
def digitsToNat (ds : List Char) : Nat :=
  ds.foldl (fun a c => a * 10 + (c.toNat - 48)) 0

/-- `strconv.Atoi`: optional sign, then one or more decimal digits, failing
on anything else and on 64-bit overflow (Go `int` is 64 bits on the
supported targets). -/
def goAtoi (s : String) : Option Int :=
  let p : Bool × List Char :=
    match s.data with
    | '+' :: r => (false, r)
    | '-' :: r => (true, r)
    | r => (false, r)
  if p.2.isEmpty then none
  else if p.2.all Char.isDigit then
    let n : Nat := digitsToNat p.2
    let v : Int := if p.1 then -(n : Int) else (n : Int)
    if v < -(2 ^ 63 : Int) || (2 ^ 63 : Int) ≤ v then none else some v
  else none

/-- `strconv.ParseBool`: the exact list of accepted literals. -/
def goParseBool (s : String) : Option Bool :=
  match s with
  | "1" | "t" | "T" | "TRUE" | "true" | "True" => some true
  | "0" | "f" | "F" | "FALSE" | "false" | "False" => some false
  | _ => none

/-- Hexadecimal digit test. -/
def isHexDigit (c : Char) : Bool :=
  c.isDigit || ('a' ≤ c && c ≤ 'f') || ('A' ≤ c && c ≤ 'F')

/-- Value of a hex digit. -/
def hexVal (c : Char) : Nat :=
  if c.isDigit then c.toNat - 48
  else if 'a' ≤ c && c ≤ 'f' then c.toNat - 87
  else c.toNat - 55

/-- Numeric value of a hex digit list. -/
def hexDigitsToNat (ds : List Char) : Nat :=
  ds.foldl (fun a c => a * 16 + hexVal c) 0

/-- Underscore placement check of `strconv.ParseFloat`: every `_` must sit
between digits (or follow a base-prefix letter). -/
def undersOKAux (prev : Char) : List Char → Bool
  | [] => true
  | '_' :: [] => false
  | '_' :: d :: rest =>
    (isHexDigit prev || prev = 'x' || prev = 'X') && isHexDigit d && undersOKAux d rest
  | c :: rest => undersOKAux c rest

def undersOK : List Char → Bool
  | [] => true
  | '_' :: _ => false
  | c :: rest => undersOKAux c rest

/-- Exponent tail of a float literal (optional sign then one or more
digits), returned as its integer value. -/
def floatExpVal (q : List Char) : Option Int :=
  let p : Bool × List Char :=
    match q with
    | '+' :: r => (false, r)
    | '-' :: r => (true, r)
    | r => (false, r)
  if !p.2.isEmpty && p.2.all Char.isDigit then
    some (if p.1 then -(digitsToNat p.2 : Int) else (digitsToNat p.2 : Int))
  else none

/-- Decimal float body (sign already stripped): `digits [. digits] [e exp]`
with at least one mantissa digit.  Returns the mantissa digit string `ds`
and the ten-exponent `e`, the literal value being `ds × 10 ^ e` (the
fractional length is already folded into `e`); `none` on a syntax error. -/
def decBody (cs : List Char) : Option (List Char × Int) :=
  let ip := cs.takeWhile Char.isDigit
  match cs.dropWhile Char.isDigit with
  | [] => if ip.isEmpty then none else some (ip, 0)
  | '.' :: rest =>
    let fp := rest.takeWhile Char.isDigit
    if ip.isEmpty && fp.isEmpty then none
    else
      (match rest.dropWhile Char.isDigit with
       | [] => some (ip ++ fp, -(fp.length : Int))
       | 'e' :: q => (floatExpVal q).map fun ex => (ip ++ fp, ex - fp.length)
       | 'E' :: q => (floatExpVal q).map fun ex => (ip ++ fp, ex - fp.length)
       | _ => none)
  | 'e' :: q => if ip.isEmpty then none else (floatExpVal q).map fun ex => (ip, ex)
  | 'E' :: q => if ip.isEmpty then none else (floatExpVal q).map fun ex => (ip, ex)
  | _ => none

/-- Hex float body after the `0x` prefix: hex mantissa with optional dot and
a mandatory binary exponent `p`.  Returns the hex mantissa digits and the
two-exponent `t`, the literal value being `ds₁₆ × 2 ^ t`. -/
def hexBody (cs : List Char) : Option (List Char × Int) :=
  let ip := cs.takeWhile isHexDigit
  match cs.dropWhile isHexDigit with
  | '.' :: rest =>
    let fp := rest.takeWhile isHexDigit
    if ip.isEmpty && fp.isEmpty then none
    else
      (match rest.dropWhile isHexDigit with
       | 'p' :: q => (floatExpVal q).map fun ex => (ip ++ fp, ex - 4 * fp.length)
       | 'P' :: q => (floatExpVal q).map fun ex => (ip ++ fp, ex - 4 * fp.length)
       | _ => none)
  | 'p' :: q => if ip.isEmpty then none else (floatExpVal q).map fun ex => (ip, ex)
  | 'P' :: q => if ip.isEmpty then none else (floatExpVal q).map fun ex => (ip, ex)
  | _ => none

/-- The float64 overflow threshold: a magnitude at or above the rounding
midpoint `2^1024 - 2^970` between the largest finite float64 and `2^1024`
rounds (ties-to-even, upward at the midpoint itself) to infinity, which
`strconv.ParseFloat` reports as `ErrRange`.  Underflow is not an error in
Go: too-small magnitudes quietly become `0` or a subnormal. -/
def floatOverflowBound : Nat := 2 ^ 1024 - 2 ^ 970

/-- Overflow test for a decimal mantissa/exponent pair (value
`ds × 10 ^ e`): the significant digit count settles every case except a
one-decade window around the threshold, which is compared exactly. -/
def decOverflow (ds : List Char) (e : Int) : Bool :=
  let sig := ds.dropWhile (fun c => c = '0')
  if sig.isEmpty then false
  else
    let dp : Int := (sig.length : Int) + e
    if dp ≤ 308 then false
    else if 310 ≤ dp then true
    else if 0 ≤ e then
      decide (floatOverflowBound ≤ digitsToNat ds * 10 ^ e.toNat)
    else
      decide (floatOverflowBound * 10 ^ (-e).toNat ≤ digitsToNat ds)

/-- Overflow test for a hex mantissa and binary exponent (value
`ds₁₆ × 2 ^ t`). -/
def hexOverflow (ds : List Char) (t : Int) : Bool :=
  let sig := ds.dropWhile (fun c => c = '0')
  if sig.isEmpty then false
  else
    let hb : Int := 4 * (sig.length : Int) + t
    if hb ≤ 1023 then false
    else if 1028 ≤ hb then true
    else if 0 ≤ t then
      decide (floatOverflowBound ≤ hexDigitsToNat ds * 2 ^ t.toNat)
    else
      decide (floatOverflowBound * 2 ^ (-t).toNat ≤ hexDigitsToNat ds)

/-- Acceptance predicate of `strconv.ParseFloat s 64`: special words
(`inf`, `infinity`, signless `nan`, case-insensitive), or a decimal or hex
literal with correctly placed underscores whose magnitude stays below the
float64 overflow threshold — out-of-range literals such as `"1e999"` fail
with `ErrRange`.  (The IEEE value of an accepted literal is abstracted
away; only acceptance is modelled.) -/
def goFloatOK (s : String) : Bool :=
  let cs := s.data
  if cs.isEmpty then false
  else
    let body : List Char :=
      match cs with
      | '+' :: r => r
      | '-' :: r => r
      | r => r
    let bodyLower := body.map Char.toLower
    if bodyLower = "inf".data || bodyLower = "infinity".data then true
    else if cs.map Char.toLower = "nan".data then true
    else if body.any (· = '_') && !undersOK body then false
    else
      let b := body.filter (fun c => c ≠ '_')
      match b with
      | '0' :: 'x' :: rest =>
        (match hexBody rest with
         | some pr => !hexOverflow pr.1 pr.2
         | none => false)
      | '0' :: 'X' :: rest =>
        (match hexBody rest with
         | some pr => !hexOverflow pr.1 pr.2
         | none => false)
      | _ =>
        (match decBody b with
         | some pr => !decOverflow pr.1 pr.2
         | none => false)

/-- `strconv.ParseFloat`, value abstracted by the accepted source text. -/
def goParseFloat (s : String) : Option String :=
  if goFloatOK s then some s else none

/-! ## encoding/json values and parser

`json.Unmarshal` into `[]interface{}` / `map[string]interface{}` is modelled
by a JSON parser over character lists.  JSON numbers decode to Go `float64`
and are therefore represented as `GoVal.float` of their source text; a
number outside float64 range (e.g. `1e999`) makes the underlying
`strconv.ParseFloat` call fail, which `json.Unmarshal` reports as an
`UnmarshalTypeError`, so the parser rejects it; JSON
strings support the standard escapes (a `\u` escape yields its code point;
surrogate-pair combination is not modelled — no claim touches it). -/

inductive GoVal where
  | null
  | str (s : String)
  | int (n : Int)
  | float (src : String)
  | bool (b : Bool)
  | arr (elems : List GoVal)
  | obj (fields : List (String × GoVal))

/-- JSON insignificant whitespace. -/
def jsonWS (c : Char) : Bool := c = ' ' || c = '\t' || c = '\n' || c = '\r'

/-- Single-character JSON string escapes. -/
def escChar : Char → Option Char
  | '"' => some '"'
  | '\\' => some '\\'
  | '/' => some '/'
  | 'b' => some '\x08'
  | 'f' => some '\x0c'
  | 'n' => some '\n'
  | 'r' => some '\r'
  | 't' => some '\t'
  | _ => none

/-- Parse the remainder of a JSON string (opening quote already consumed).
Returns the decoded characters and the rest of the input. -/
def parseJStrAux : List Char → List Char → Option (List Char × List Char)
  | [], _ => none
  | '"' :: r, acc => some (acc.reverse, r)
  | '\\' :: 'u' :: h1 :: h2 :: h3 :: h4 :: r, acc =>
    if isHexDigit h1 && isHexDigit h2 && isHexDigit h3 && isHexDigit h4 then
      parseJStrAux r
        (Char.ofNat (hexVal h1 * 4096 + hexVal h2 * 256 + hexVal h3 * 16 + hexVal h4) :: acc)
    else none
  | '\\' :: e :: r, acc =>
    match escChar e with
    | some c => parseJStrAux r (c :: acc)
    | none => none
  | c :: r, acc => if c.toNat < 32 then none else parseJStrAux r (c :: acc)

/-- Fractional part of a JSON number. -/
def jFrac : List Char → Option (List Char × List Char)
  | '.' :: q =>
    let ds := q.takeWhile Char.isDigit
    if ds.isEmpty then none else some ('.' :: ds, q.dropWhile Char.isDigit)
  | r => some ([], r)

/-- Exponent tail of a JSON number after `e`/`E`. -/
def jExpTail (e : Char) (q : List Char) : Option (List Char × List Char) :=
  let p : List Char × List Char :=
    match q with
    | '+' :: r => (['+'], r)
    | '-' :: r => (['-'], r)
    | r => ([], r)
  let ds := p.2.takeWhile Char.isDigit
  if ds.isEmpty then none else some (e :: p.1 ++ ds, p.2.dropWhile Char.isDigit)

/-- Optional exponent part of a JSON number. -/
def jExp : List Char → Option (List Char × List Char)
  | 'e' :: q => jExpTail 'e' q
  | 'E' :: q => jExpTail 'E' q
  | r => some ([], r)

/-- Parse a JSON number (strict grammar: no leading zeros, `-` only). -/
def parseJNumChars (cs : List Char) : Option (List Char × List Char) :=
  let p : List Char × List Char :=
    match cs with
    | '-' :: r => (['-'], r)
    | r => ([], r)
  match p.2 with
  | '0' :: r1 =>
    (jFrac r1).bind fun f => (jExp f.2).map fun e => (p.1 ++ '0' :: f.1 ++ e.1, e.2)
  | c :: r1 =>
    if c.isDigit then
      let ds := r1.takeWhile Char.isDigit
      (jFrac (r1.dropWhile Char.isDigit)).bind fun f =>
        (jExp f.2).map fun e => (p.1 ++ c :: ds ++ f.1 ++ e.1, e.2)
    else none
  | [] => none

/- Recursive-descent JSON parser, fuelled (each unit of fuel is spent after
at least one input character has been consumed, so `2 * length + 2` fuel at
the top level never runs dry on well-formed input). -/
mutual

def parseJVal : Nat → List Char → Option (GoVal × List Char)
  | 0, _ => none
  | Nat.succ fuel, cs =>
    match cs.dropWhile jsonWS with
    | 'n' :: 'u' :: 'l' :: 'l' :: r => some (GoVal.null, r)
    | 't' :: 'r' :: 'u' :: 'e' :: r => some (GoVal.bool true, r)
    | 'f' :: 'a' :: 'l' :: 's' :: 'e' :: r => some (GoVal.bool false, r)
    | '"' :: r => (parseJStrAux r []).map fun p => (GoVal.str (String.mk p.1), p.2)
    | '[' :: r => parseJArr fuel r
    | '{' :: r => parseJObj fuel r
    | rest =>
      (parseJNumChars rest).bind fun p =>
        match decBody (match p.1 with | '-' :: r => r | r => r) with
        | some pr =>
          if decOverflow pr.1 pr.2 then none else some (GoVal.float (String.mk p.1), p.2)
        | none => none

def parseJArr : Nat → List Char → Option (GoVal × List Char)
  | 0, _ => none
  | Nat.succ fuel, cs =>
    match cs.dropWhile jsonWS with
    | ']' :: r => some (GoVal.arr [], r)
    | rest =>
      match parseJVal fuel rest with
      | none => none
      | some p => parseJArrRest fuel p.2 [p.1]

def parseJArrRest : Nat → List Char → List GoVal → Option (GoVal × List Char)
  | 0, _, _ => none
  | Nat.succ fuel, cs, acc =>
    match cs.dropWhile jsonWS with
    | ',' :: r =>
      (match parseJVal fuel r with
       | none => none
       | some p => parseJArrRest fuel p.2 (p.1 :: acc))
    | ']' :: r => some (GoVal.arr acc.reverse, r)
    | _ => none

def parseJObj : Nat → List Char → Option (GoVal × List Char)
  | 0, _ => none
  | Nat.succ fuel, cs =>
    match cs.dropWhile jsonWS with
    | '}' :: r => some (GoVal.obj [], r)
    | '"' :: r =>
      (match parseJMember fuel r with
       | none => none
       | some p => parseJObjRest fuel p.2 [p.1])
    | _ => none

def parseJMember : Nat → List Char → Option ((String × GoVal) × List Char)
  | 0, _ => none
  | Nat.succ fuel, cs =>
    match parseJStrAux cs [] with
    | none => none
    | some k =>
      match k.2.dropWhile jsonWS with
      | ':' :: r =>
        (match parseJVal fuel r with
         | none => none
         | some v => some ((String.mk k.1, v.1), v.2))
      | _ => none

def parseJObjRest : Nat → List Char → List (String × GoVal) → Option (GoVal × List Char)
  | 0, _, _ => none
  | Nat.succ fuel, cs, acc =>
    match cs.dropWhile jsonWS with
    | ',' :: r =>
      (match r.dropWhile jsonWS with
       | '"' :: r2 =>
         (match parseJMember fuel r2 with
          | none => none
          | some p => parseJObjRest fuel p.2 (p.1 :: acc))
       | _ => none)
    | '}' :: r => some (GoVal.obj acc.reverse, r)
    | _ => none

end

/-- Parse one complete JSON document (no trailing data, as `json.Unmarshal`
requires). -/
def jsonUnmarshal (s : String) : Option GoVal :=
  match parseJVal (2 * s.data.length + 2) s.data with
  | some p => if p.2.dropWhile jsonWS = [] then some p.1 else none
  | none => none

/-- `json.Unmarshal(data, &arrayValue)` for `arrayValue : []interface{}`:
succeeds exactly on a top-level JSON array (or `null`, which leaves the
slice nil — serialized back as JSON `null`). -/
def goUnmarshalArray (s : String) : Option GoVal :=
  match jsonUnmarshal s with
  | some (GoVal.arr xs) => some (GoVal.arr xs)
  | some GoVal.null => some GoVal.null
  | _ => none

/-- `json.Unmarshal(data, &objectValue)` for
`objectValue : map[string]interface{}`. -/
def goUnmarshalObject (s : String) : Option GoVal :=
  match jsonUnmarshal s with
  | some (GoVal.obj fs) => some (GoVal.obj fs)
  | some GoVal.null => some GoVal.null
  | _ => none

/-! ## The models package (app/models/models.go)

`SchemaRef.Example`, `MediaType.Example` and `MediaType.Examples` hold
untyped JSON (`interface{}`) and are never read by the core; they are
omitted from the model. -/

structure Server where
  url : String
  description : String

inductive SchemaRef where
  | mk (type format : String) (properties : List (String × Option SchemaRef))
       (required : List String) (items : Option SchemaRef) (ref description : String)

def SchemaRef.type : SchemaRef → String
  | .mk t _ _ _ _ _ _ => t

def SchemaRef.format : SchemaRef → String
  | .mk _ f _ _ _ _ _ => f

def SchemaRef.properties : SchemaRef → List (String × Option SchemaRef)
  | .mk _ _ p _ _ _ _ => p

def SchemaRef.requiredNames : SchemaRef → List String
  | .mk _ _ _ r _ _ _ => r

def SchemaRef.items : SchemaRef → Option SchemaRef
  | .mk _ _ _ _ i _ _ => i

def SchemaRef.ref : SchemaRef → String
  | .mk _ _ _ _ _ r _ => r

structure Property where
  type : String
deriving DecidableEq

structure Definition where
  type : String
  properties : List (String × Property)
deriving DecidableEq

structure Components where
  schemas : List (String × Definition)

structure Parameter where
  name : String
  paramIn : String
  required : Bool
  type : String
  schema : Option SchemaRef
  description : String

structure MediaType where
  schema : Option SchemaRef

structure RequestBody where
  description : String
  required : Bool
  content : List (String × MediaType)

structure Response where
  description : String
  schema : Option SchemaRef
  type : String

structure Endpoint where
  summary : String
  description : String
  parameters : List Parameter
  requestBody : Option RequestBody
  responses : List (String × Response)
  consumes : List String
  produces : List String

structure SwaggerSpec where
  host : String
  basePath : String
  swagger : String
  openapi : String
  servers : List Server
  components : Option Components
  paths : List (String × List (String × Endpoint))
  definitions : List (String × Definition)

structure ApiConfig where
  baseUrl : String
  includePaths : String
  excludePaths : String
  includeMethods : String
  excludeMethods : String
  security : String
  basicAuth : String
  apiKeyAuth : String
  bearerAuth : String
  sseHeaders : String
  headers : String

/-! ## Association-list operations standing in for Go maps -/

/-- Go map read `m[k]` (two-valued form): `none` when the key is absent. -/
def alookup {β : Type} (k : String) : List (String × β) → Option β
  | [] => none
  | kv :: rest => if k = kv.1 then some kv.2 else alookup k rest

/-- Read of a `map[string]*SchemaRef`: an absent key and a present-but-nil
pointer both yield `none` (Go returns the nil pointer either way). -/
def lookupPtr (k : String) (m : List (String × Option SchemaRef)) : Option SchemaRef :=
  (alookup k m).join

/-- Go map write `m[k] = v`: overwrite in place, or append a new key. -/
def mapSet {β : Type} (m : List (String × β)) (k : String) (v : β) : List (String × β) :=
  match m with
  | [] => [(k, v)]
  | kv :: rest => if k = kv.1 then (kv.1, v) :: rest else kv :: mapSet rest k v

/-! ## mcpserver core: schema name extraction and filters -/

/-- `ExtractSchemaName`: the trailing `/`-segment of a non-empty reference,
otherwise the inline type string. -/
def ExtractSchemaName (ref schemaType : String) : String :=
  if ref ≠ "" then (goSplitChar ref '/').getLastD ""
  else schemaType

/-- `compileRegexes`: split the configuration string on commas, trim, skip
blanks, and keep the patterns the (oracle) compiler accepts. -/
def compileRegexes (compile : String → Option (String → Bool)) (paths : String) :
    List (String → Bool) :=
  ((goSplitChar paths ',').map goTrimSpace).filterMap
    (fun path => if path = "" then none else compile path)

/-- `shouldIncludePath`. -/
def shouldIncludePath (path : String) (includeRegexes excludeRegexes : List (String → Bool)) :
    Bool :=
  let includeFlag := includeRegexes.isEmpty || includeRegexes.any (fun regex => regex path)
  if !includeFlag then false
  else if excludeRegexes.any (fun regex => regex path) then false
  else true

/-- `shouldIncludeMethod`. -/
def shouldIncludeMethod (method : String) (includeMethods excludeMethods : List String) : Bool :=
  let includeFlag := includeMethods.isEmpty ||
    includeMethods.any (fun m => goEqualFold (goTrimSpace m) method)
  if !includeFlag then false
  else if excludeMethods.any (fun m => goEqualFold (goTrimSpace m) method) then false
  else true

/-! ## mcpserver core: tool derivation (LoadSwaggerServer loop body) -/

/-- The `fmt.Sprintf` texts of the derived tool inputs. -/
def paramDesc (n : String) : String := "The data for " ++ n

def bodyPropDesc (n t : String) : String :=
  "The data for " ++ n ++ ", it should be in format of " ++ t

def itemPropDesc (n t : String) : String :=
  "The item  for " ++ n ++ ", it should be in format of " ++ t

def usageDesc (summary description : String) : String :=
  "Use this tool only when the request exactly matches " ++ summary ++ " or " ++ description ++
  ". If you dont have any of the required parameters then always ask user for it, *Dont fill any paramter on your own or keep it empty*. If there is [Error], only state that error in your reponse and stop the reponse there itself. *Do not ever maintain records in your memory for eg list of users or orders*"

/-- One registered `mcp.ToolOption`: either a declared string input
(`mcp.WithString`, with or without `mcp.Required()`) or the usage text
(`mcp.WithDescription`). -/
inductive ToolOption where
  | stringInput (name description : String) (required : Bool)
  | withDescription (text : String)
deriving DecidableEq

/-- The immutable data captured for one operation: the tool name and
options handed to `mcp.NewTool`, plus the closure state handed to
`CreateMCPToolHandler`. -/
structure ToolDescriptor where
  name : String
  toolOptions : List ToolOption
  pathParams : List String
  queryParams : List String
  headerParams : List String
  body : List (String × String)
  url : String
  method : String
deriving DecidableEq

/-- The Go panic message raised by a nil pointer dereference. -/
def nilderef : String := "runtime error: invalid memory address or nil pointer dereference"

/-- Base URL selection (LoadSwaggerServer lines 160–181). -/
def computeBaseURL (spec : SwaggerSpec) (apiCfg : ApiConfig) : String :=
  if apiCfg.baseUrl = "" then
    if spec.openapi ≠ "" then
      match spec.servers with
      | server :: _ => goTrimSuffix server.url "/"
      | [] => "/"
    else
      let baseURL := spec.host
      let baseURL :=
        if !goStartsWith baseURL "http://" && !goStartsWith baseURL "https://" then
          "https://" ++ baseURL
        else baseURL
      if spec.basePath ≠ "" then
        goTrimSuffix baseURL "/" ++ "/" ++ goTrimLeading spec.basePath "/"
      else baseURL
  else apiCfg.baseUrl

/-- Final request URL (LoadSwaggerServer line 183). -/
def computeReqURL (spec : SwaggerSpec) (apiCfg : ApiConfig) (path : String) : String :=
  goTrimSuffix (computeBaseURL spec apiCfg) "/" ++ "/" ++ goTrimLeading path "/"

/-- Tool name (LoadSwaggerServer lines 305–312).  Go truncates the first 40
bytes; on the ASCII names produced here that is the first 40 characters. -/
def toolNameFor (method path : String) : String :=
  let pathWithoutDot := replaceAllChar '/' "_" path
  let toolName :=
    method ++ "_" ++ replaceAllChar (Char.ofNat 123) "" (replaceAllChar (Char.ofNat 125) "" pathWithoutDot)
  if 40 ≤ toolName.length then String.mk (toolName.data.take 40) else toolName

/-- Declared inputs and collected names of one parameter group (`in ==
header|query|path`, LoadSwaggerServer lines 191–242). -/
def paramOptionsFor (loc : String) (params : List Parameter) : List ToolOption × List String :=
  params.foldl
    (fun acc param =>
      if param.paramIn = loc then
        (acc.1 ++ [ToolOption.stringInput param.name (paramDesc param.name) param.required],
         acc.2 ++ [param.name])
      else acc)
    ([], [])

/-- Dialect-1 body parameter step (LoadSwaggerServer lines 243–257).
`param.Schema.Ref` dereferences the schema pointer unconditionally, so a
schema-less body parameter panics. -/
def bodyParamStep (defs : List (String × Definition))
    (acc : List ToolOption × List (String × String)) (param : Parameter) :
    Except String (List ToolOption × List (String × String)) :=
  if param.paramIn = "body" then
    match param.schema with
    | none => Except.error nilderef
    | some schema =>
      match alookup (ExtractSchemaName schema.ref param.type) defs with
      | some definition =>
        Except.ok (definition.properties.foldl
          (fun a pp =>
            (a.1 ++ [ToolOption.stringInput pp.1 (bodyPropDesc pp.1 pp.2.type) true],
             mapSet a.2 pp.1 pp.2.type))
          acc)
      | none => Except.ok acc
  else Except.ok acc

/-- Nested array item inputs (LoadSwaggerServer lines 267–279).
`schemaProp.Items` and each `prop.Type` dereference possibly-nil pointers. -/
def itemOptions (sch : SchemaRef) (schemaName : String) : Except String (List ToolOption) :=
  match lookupPtr schemaName sch.properties with
  | some schemaProp =>
    match schemaProp.items with
    | none => Except.error nilderef
    | some itemsSchema =>
      itemsSchema.properties.mapM
        (fun ip =>
          match ip.2 with
          | none => Except.error nilderef
          | some prop => Except.ok (ToolOption.stringInput ip.1 (itemPropDesc ip.1 prop.type) true))
  | none => Except.ok []

/-- One resolved dialect-2 body property (LoadSwaggerServer lines 264–286). -/
def contentPropStep (sch : SchemaRef) (schemaName : String)
    (acc : List ToolOption × List (String × String)) (pp : String × Property) :
    Except String (List ToolOption × List (String × String)) := do
  let itemOpts ← if pp.2.type = "array" then itemOptions sch schemaName else Except.ok []
  Except.ok
    (acc.1 ++ itemOpts ++ [ToolOption.stringInput pp.1 (bodyPropDesc pp.1 pp.2.type) true],
     mapSet acc.2 pp.1 pp.2.type)

/-- One request-body content entry (LoadSwaggerServer lines 259–288).
`mediaType.Schema.Ref` and `swaggerSpec.Components.Schemas` both
dereference possibly-nil pointers before any lookup succeeds. -/
def contentEntryStep (spec : SwaggerSpec)
    (acc : List ToolOption × List (String × String)) (entry : String × MediaType) :
    Except String (List ToolOption × List (String × String)) :=
  match entry.2.schema with
  | none => Except.error nilderef
  | some sch =>
    let schemaName := ExtractSchemaName sch.ref sch.type
    match spec.components with
    | none => Except.error nilderef
    | some comps =>
      match alookup schemaName comps.schemas with
      | some definition => definition.properties.foldlM (contentPropStep sch schemaName) acc
      | none => Except.ok acc

/-- Dialect-2 request body handling (LoadSwaggerServer lines 258–289). -/
def requestBodyStep (spec : SwaggerSpec) (details : Endpoint)
    (acc : List ToolOption × List (String × String)) :
    Except String (List ToolOption × List (String × String)) :=
  match details.requestBody with
  | none => Except.ok acc
  | some rb => rb.content.foldlM (contentEntryStep spec) acc

/-- The full body of the per-operation loop of `LoadSwaggerServer`: produce
the descriptor registered for one retained (path, method) pair.  (The
`expectedResponse` list computed at lines 290–300 of the source is dead:
nothing ever reads it, so it is not modelled.) -/
def deriveTool (spec : SwaggerSpec) (apiCfg : ApiConfig) (path method : String)
    (details : Endpoint) : Except String ToolDescriptor := do
  let hdr := paramOptionsFor "header" details.parameters
  let qry := paramOptionsFor "query" details.parameters
  let pth := paramOptionsFor "path" details.parameters
  let acc1 ← details.parameters.foldlM (bodyParamStep spec.definitions)
    (hdr.1 ++ qry.1 ++ pth.1, [])
  let acc2 ← requestBodyStep spec details acc1
  Except.ok
    { name := toolNameFor method path
      toolOptions := acc2.1 ++ [ToolOption.withDescription (usageDesc details.summary details.description)]
      pathParams := pth.2
      queryParams := qry.2
      headerParams := hdr.2
      body := acc2.2
      url := computeReqURL spec apiCfg path
      method := method }

/-- The (path, method, operation) triples surviving the filters, in the
model's fixed iteration order. -/
def retainedOps (includeRegexes excludeRegexes : List (String → Bool))
    (includeMethods excludeMethods : List String)
    (paths : List (String × List (String × Endpoint))) : List (String × String × Endpoint) :=
  paths.flatMap
    (fun pm =>
      if shouldIncludePath pm.1 includeRegexes excludeRegexes then
        pm.2.flatMap
          (fun md =>
            if shouldIncludeMethod md.1 includeMethods excludeMethods then [(pm.1, md.1, md.2)]
            else [])
      else [])

/-- The retained operations of this load, with the filter configuration
expanded exactly as `LoadSwaggerServer` lines 133–142 expand it. -/
def retainedOpsOf (compile : String → Option (String → Bool)) (spec : SwaggerSpec)
    (apiCfg : ApiConfig) : List (String × String × Endpoint) :=
  let includeRegexes := compileRegexes compile apiCfg.includePaths
  let excludeRegexes := compileRegexes compile apiCfg.excludePaths
  let includedMethods :=
    if 0 < (goTrimSpace apiCfg.includeMethods).length then goSplitChar apiCfg.includeMethods ','
    else []
  let excludedMethods :=
    if 0 < (goTrimSpace apiCfg.excludeMethods).length then goSplitChar apiCfg.excludeMethods ','
    else []
  retainedOps includeRegexes excludeRegexes includedMethods excludedMethods spec.paths

/-- `LoadSwaggerServer` as a pure derivation: the sequence of descriptors
registered with the MCP server, or the panic that aborts the load. -/
def deriveTools (compile : String → Option (String → Bool)) (spec : SwaggerSpec)
    (apiCfg : ApiConfig) : Except String (List ToolDescriptor) :=
  (retainedOpsOf compile spec apiCfg).mapM
    (fun op => deriveTool spec apiCfg op.1 op.2.1 op.2.2)

/-! ## net/url and net/http request model

A URL is its pre-`?` text plus a query association list.  Percent
encoding/decoding is not modelled (no claim exercises it); `Values.Encode`
sorts by key, which the model reproduces.  `url.Parse` fails only on
control characters, mirroring the only failure the handler can hit. -/

structure URLModel where
  base : String
  query : List (String × String)
deriving DecidableEq

/-- `url.ParseQuery` on a raw query string. -/
def parseQuery (raw : String) : List (String × String) :=
  if raw = "" then []
  else
    (goSplitChar raw '&').filterMap
      (fun seg =>
        if seg = "" then none
        else
          match goSplitN2 seg '=' with
          | some kv => some kv
          | none => some (seg, ""))

/-- `url.Parse`. -/
def goURLParse (s : String) : Option URLModel :=
  if s.data.any (fun c => c.toNat < 32 || c.toNat = 127) then none
  else
    match charIndex '?' s.data with
    | none => some { base := s, query := [] }
    | some i =>
      some { base := String.mk (s.data.take i), query := parseQuery (String.mk (s.data.drop (i + 1))) }

/-- `url.Values.Set`: replace every value of the key with the single new one. -/
def querySet (q : List (String × String)) (k v : String) : List (String × String) :=
  q.filter (fun kv => kv.1 ≠ k) ++ [(k, v)]

/-- Byte-order comparison of keys (UTF-8 order equals code-point order). -/
def charListLe : List Char → List Char → Bool
  | [], _ => true
  | _ :: _, [] => false
  | a :: as, b :: bs => if a = b then charListLe as bs else Nat.blt a.toNat b.toNat

/-- Stable insertion used by the key sort of `url.Values.Encode`. -/
def insertByKey (kv : String × String) : List (String × String) → List (String × String)
  | [] => [kv]
  | x :: xs => if charListLe x.1.data kv.1.data then x :: insertByKey kv xs else kv :: x :: xs

def sortByKey (l : List (String × String)) : List (String × String) :=
  l.foldl (fun acc kv => insertByKey kv acc) []

def joinSep (sep : String) : List String → String
  | [] => ""
  | [x] => x
  | x :: xs => x ++ sep ++ joinSep sep xs

/-- `URL.String` with `RawQuery = Values.Encode()`. -/
def urlToString (u : URLModel) : String :=
  if u.query.isEmpty then u.base
  else u.base ++ "?" ++ joinSep "&" ((sortByKey u.query).map (fun kv => kv.1 ++ "=" ++ kv.2))

/-- An outbound `*http.Request` at the moment `client.Do` receives it.
Header keys are kept verbatim (Go canonicalizes MIME header keys; all keys
used here are already canonical or compared verbatim). -/
structure HttpRequest where
  method : String
  url : URLModel
  headers : List (String × String)
  cookies : List (String × String)
  body : List (String × GoVal)

/-- `http.Header.Set`. -/
def headerSet (h : List (String × String)) (k v : String) : List (String × String) :=
  h.filter (fun kv => kv.1 ≠ k) ++ [(k, v)]

/-- `http.Header.Add`. -/
def headerAdd (h : List (String × String)) (k v : String) : List (String × String) :=
  h ++ [(k, v)]

/-- `http.Header.Get`. -/
def headerGet (h : List (String × String)) (k : String) : Option String := alookup k h

/-! ## base64 (for `basic` security) -/

def charUtf8 (c : Char) : List Nat :=
  let n := c.toNat
  if n < 128 then [n]
  else if n < 2048 then [192 + n / 64, 128 + n % 64]
  else if n < 65536 then [224 + n / 4096, 128 + n / 64 % 64, 128 + n % 64]
  else [240 + n / 262144, 128 + n / 4096 % 64, 128 + n / 64 % 64, 128 + n % 64]

def utf8Bytes (s : String) : List Nat := s.data.flatMap charUtf8

def b64Digit (n : Nat) : Char :=
  "ABCDEFGHIJKLMNOPQRSTUVWXYZabcdefghijklmnopqrstuvwxyz0123456789+/".data.getD n 'A'

def b64Chunks : List Nat → List Char
  | [] => []
  | [a] => [b64Digit (a / 4), b64Digit (a % 4 * 16), '=', '=']
  | [a, b] => [b64Digit (a / 4), b64Digit (a % 4 * 16 + b / 16), b64Digit (b % 16 * 4), '=']
  | a :: b :: c :: rest =>
    [b64Digit (a / 4), b64Digit (a % 4 * 16 + b / 16), b64Digit (b % 16 * 4 + c / 64),
     b64Digit (c % 64)] ++ b64Chunks rest

/-- `base64.StdEncoding.EncodeToString([]byte(s))`. -/
def goBase64Std (s : String) : String := String.mk (b64Chunks (utf8Bytes s))

/-! ## mcpserver core: setRequestSecurity -/

/-- One comma-separated apiKey credential entry (setRequestSecurity lines
342–364).  The fold state is the request plus the pending `queryValues` map
and `cookieValues` slice.  Entries with a missing `:` or `=`, or whose `=`
sits before `:` + 2, are skipped individually. -/
def apiKeyPartStep (st : HttpRequest × List (String × String) × List (String × String))
    (part0 : String) : HttpRequest × List (String × String) × List (String × String) :=
  let part := goTrimSpace part0
  if part = "" then st
  else
    match charIndex ':' part.data, charIndex '=' part.data with
    | some colonIdx, some eqIdx =>
      if eqIdx < colonIdx + 2 then st
      else
        let passAs := goToLower (goTrimSpace (String.mk (part.data.take colonIdx)))
        let name :=
          goTrimSpace (String.mk ((part.data.drop (colonIdx + 1)).take (eqIdx - (colonIdx + 1))))
        let value := goTrimSpace (String.mk (part.data.drop (eqIdx + 1)))
        if passAs = "header" then
          ({ st.1 with headers := headerSet st.1.headers name value }, st.2.1, st.2.2)
        else if passAs = "query" then (st.1, mapSet st.2.1 name value, st.2.2)
        else if passAs = "cookie" then (st.1, st.2.1, st.2.2 ++ [(name, value)])
        else st
    | _, _ => st

/-- The deferred query merge of `setRequestSecurity` (lines 366–378): when
apiKey query entries are pending, re-parse the request URL, `Set` each
pending value (overwriting same-named values) and re-encode; a parse error
leaves the request unchanged. -/
def mergeQueryValues (req : HttpRequest) (queryValues : List (String × String)) : HttpRequest :=
  if !queryValues.isEmpty then
    match goURLParse (urlToString req.url) with
    | some u =>
      { req with url := { u with query := queryValues.foldl (fun q kv => querySet q kv.1 kv.2) u.query } }
    | none => req
  else req

/-- `setRequestSecurity`: mutate the outbound request according to the
configured security mode (exactly one mode matches `securityType`). -/
def setRequestSecurity (req : HttpRequest) (security basicAuth apiKeyAuth bearerAuth : String) :
    HttpRequest :=
  let securityType := goTrimSpace security
  let req :=
    if securityType = "basic" && basicAuth ≠ "" then
      { req with headers := headerSet req.headers "Authorization" ("Basic " ++ goBase64Std basicAuth) }
    else req
  let req :=
    if securityType = "bearer" && bearerAuth ≠ "" then
      { req with headers := headerSet req.headers "Authorization" ("Bearer " ++ bearerAuth) }
    else req
  let st :=
    if securityType = "apiKey" && apiKeyAuth ≠ "" then
      (goSplitChar apiKeyAuth ',').foldl apiKeyPartStep
        (req, ([] : List (String × String)), ([] : List (String × String)))
    else (req, [], [])
  let req := mergeQueryValues st.1 st.2.1
  { req with cookies := req.cookies ++ st.2.2 }

/-! ## mcpserver core: CreateMCPToolHandler -/

/-- One caller-supplied argument value (`interface{}`): a string, or
anything that fails the `.(string)` type assertion. -/
inductive ArgVal where
  | str (s : String)
  | notStr
deriving DecidableEq

/-- `request.Params.Arguments[name].(string)`: present and string-typed. -/
def argString (args : List (String × ArgVal)) (name : String) : Option String :=
  match alookup name args with
  | some (ArgVal.str s) => some s
  | _ => none

/-- Body value coercion (CreateMCPToolHandler lines 429–470). -/
def coerceBodyParam (paramName paramType paramStr : String) : Except String GoVal :=
  match paramType with
  | "string" => Except.ok (GoVal.str paramStr)
  | "int" | "integer" =>
    (match goAtoi paramStr with
     | some intValue => Except.ok (GoVal.int intValue)
     | none => Except.error ("[Error] invalid type for parameter " ++ paramName ++ ", expected int"))
  | "float" =>
    (match goParseFloat paramStr with
     | some floatValue => Except.ok (GoVal.float floatValue)
     | none => Except.error ("[Error] invalid type for parameter " ++ paramName ++ ", expected float"))
  | "bool" | "boolean" =>
    (match goParseBool paramStr with
     | some boolValue => Except.ok (GoVal.bool boolValue)
     | none => Except.error ("[Error] invalid type for parameter " ++ paramName ++ ", expected bool"))
  | "array" =>
    (match goUnmarshalArray paramStr with
     | some arrayValue => Except.ok arrayValue
     | none => Except.error ("[Error] invalid type for parameter " ++ paramName ++ ", expected array"))
  | "object" =>
    (match goUnmarshalObject paramStr with
     | some objectValue => Except.ok objectValue
     | none => Except.error ("[Error] invalid type for parameter " ++ paramName ++ ", expected object"))
  | _ => Except.error ("[Error] unsupported parameter type: " ++ paramType ++ " for " ++ paramName)

/-- Path substitution (handler lines 396–402): each declared path parameter
must be a string argument; `strings.Replace(url, "{name}", v, 1)`. -/
def substPathParams (args : List (String × ArgVal)) : List String → String → Except String String
  | [], url => Except.ok url
  | p :: rest, url =>
    match argString args p with
    | none => Except.error ("[Error] missing or invalid Path Parameter: " ++ p)
    | some v => substPathParams args rest (goReplaceFirst url ("\x7b" ++ p ++ "\x7d") v)

/-- Query assembly loop (handler lines 410–417). -/
def setQueryParams (args : List (String × ArgVal)) :
    List String → List (String × String) → Except String (List (String × String))
  | [], q => Except.ok q
  | n :: rest, q =>
    match argString args n with
    | none => Except.error ("[Error] missing or invalid Query Parameter: " ++ n)
    | some v => setQueryParams args rest (querySet q n v)

/-- Body assembly loop (handler lines 422–472). -/
def buildBodyData (args : List (String × ArgVal)) :
    List (String × String) → List (String × GoVal) → Except String (List (String × GoVal))
  | [], acc => Except.ok acc
  | pt :: rest, acc =>
    match argString args pt.1 with
    | none => Except.error ("[Error] missing Body Parameter: " ++ pt.1)
    | some paramStr =>
      match coerceBodyParam pt.1 pt.2 paramStr with
      | Except.error e => Except.error e
      | Except.ok v => buildBodyData args rest (mapSet acc pt.1 v)

/-- Declared header loop (handler lines 484–490). -/
def addHeaders (args : List (String × ArgVal)) :
    List String → List (String × String) → Except String (List (String × String))
  | [], h => Except.ok h
  | n :: rest, h =>
    match argString args n with
    | none => Except.error ("[Error] missing or invalid Header: " ++ n)
    | some v => addHeaders args rest (headerAdd h n v)

/-- Static configured headers (handler lines 497–508). -/
def staticHeaders (cfgHeaders : String) (h : List (String × String)) : List (String × String) :=
  if cfgHeaders ≠ "" then
    (goSplitChar cfgHeaders ',').foldl
      (fun h pair0 =>
        let pair := goTrimSpace pair0
        if pair = "" then h
        else
          match goSplitN2 pair '=' with
          | some kv =>
            if goTrimSpace kv.1 ≠ "" then headerAdd h (goTrimSpace kv.1) (goTrimSpace kv.2) else h
          | none => h)
      h
  else h

/-- Forwarded SSE headers (handler lines 511–518). -/
def sseApply (sseHeaders : Option (List (String × String))) (h : List (String × String)) :
    List (String × String) :=
  match sseHeaders with
  | some m => m.foldl (fun h kv => headerSet h kv.1 kv.2) h
  | none => h

/-- A handler run, stopped at the outbound call: either the `[Error] ...`
text returned (as a successful protocol result, with a nil Go error) before
any network activity, or the fully assembled request handed to
`client.Do`. -/
inductive HandlerOutcome where
  | errorText (msg : String)
  | dispatch (req : HttpRequest)

/-- Query-assembly stage (handler lines 405–420): re-parse the URL, `Set`
every declared query parameter, re-encode. -/
def queryStep (args : List (String × ArgVal)) (reqQueryParam : List String) (url1 : String) :
    Except String String :=
  if !reqQueryParam.isEmpty then
    match goURLParse url1 with
    | none => Except.error "[Error] failed to parse URL: parse error"
    | some u =>
      match setQueryParams args reqQueryParam u.query with
      | Except.error msg => Except.error msg
      | Except.ok q => Except.ok (urlToString { u with query := q })
  else Except.ok url1

/-- The closure returned by `CreateMCPToolHandler`, as a pure function of
the invocation arguments and forwarded SSE headers.  `json.Marshal` of the
coerced body map cannot fail, so the serialized body is carried as the map
itself; steps after `client.Do` (transport and response reading) are beyond
the dispatch boundary. -/
def toolHandler (reqPathParam reqQueryParam : List String) (reqURL : String)
    (reqBody : List (String × String)) (reqMethod : String) (reqHeader : List String)
    (apiCfg : ApiConfig) (args : List (String × ArgVal))
    (sseHeaders : Option (List (String × String))) : HandlerOutcome :=
  match substPathParams args reqPathParam reqURL with
  | Except.error msg => HandlerOutcome.errorText msg
  | Except.ok url1 =>
    match queryStep args reqQueryParam url1 with
    | Except.error msg => HandlerOutcome.errorText msg
    | Except.ok url2 =>
      match buildBodyData args reqBody [] with
      | Except.error msg => HandlerOutcome.errorText msg
      | Except.ok bodyData =>
        match goURLParse url2 with
        | none => HandlerOutcome.errorText "[Error] failed to create HTTP request: parse error"
        | some u2 =>
          match addHeaders args reqHeader [] with
          | Except.error msg => HandlerOutcome.errorText msg
          | Except.ok hs =>
            let req : HttpRequest :=
              { method := goToUpper reqMethod, url := u2,
                headers := headerSet hs "Content-Type" "application/json",
                cookies := [], body := bodyData }
            let req := setRequestSecurity req apiCfg.security apiCfg.basicAuth apiCfg.apiKeyAuth
              apiCfg.bearerAuth
            let req := { req with headers := sseApply sseHeaders (staticHeaders apiCfg.headers req.headers) }
            HandlerOutcome.dispatch req

/-! ## Claim-side characterizations and concrete fixtures -/

/-- Claim-side (spec wording): the substring of `s` after the last
occurrence of `/` (the whole string when no `/` occurs). -/
def afterLastSlash (s : String) : String :=
  String.mk ((s.data.reverse.takeWhile (fun c => c != '/')).reverse)

/-- Every body field name that resolution can place into a descriptor's
body map: dialect-1 body parameter definition properties plus dialect-2
content definition properties.  Nested array item properties are absent by
construction. -/
def declaredFieldNames (spec : SwaggerSpec) (details : Endpoint) : List String :=
  details.parameters.flatMap
    (fun param =>
      if param.paramIn = "body" then
        match param.schema with
        | some schema =>
          (match alookup (ExtractSchemaName schema.ref param.type) spec.definitions with
           | some definition => definition.properties.map Prod.fst
           | none => [])
        | none => []
      else []) ++
  (match details.requestBody with
   | none => []
   | some rb =>
     rb.content.flatMap
       (fun entry =>
         match entry.2.schema with
         | some sch =>
           (match spec.components with
            | some comps =>
              (match alookup (ExtractSchemaName sch.ref sch.type) comps.schemas with
               | some defn => defn.properties.map Prod.fst
               | none => [])
            | none => [])
         | none => []))

/-- The nil-dereference freedom conditions for one dialect-2 media type:
its schema pointer is present, the components table is present, and any
located same-named nested array schema has an items object whose property
pointers are present. -/
def mediaTypeSafe (comps : Option Components) (mt : MediaType) : Bool :=
  match mt.schema with
  | none => false
  | some sch =>
    match comps with
    | none => false
    | some c =>
      match alookup (ExtractSchemaName sch.ref sch.type) c.schemas with
      | none => true
      | some defn =>
        defn.properties.all
          (fun pp =>
            pp.2.type ≠ "array" ||
            (match lookupPtr (ExtractSchemaName sch.ref sch.type) sch.properties with
             | none => true
             | some sp =>
               match sp.items with
               | none => false
               | some itemsSchema => itemsSchema.properties.all (fun ip => ip.2.isSome)))

/-- Nil-dereference freedom for one operation: every body-located parameter
carries a schema object, and every request-body content entry is safe. -/
def endpointSafe (spec : SwaggerSpec) (ep : Endpoint) : Bool :=
  ep.parameters.all (fun param => param.paramIn ≠ "body" || param.schema.isSome) &&
  (match ep.requestBody with
   | none => true
   | some rb => rb.content.all (fun entry => mediaTypeSafe spec.components entry.2))

/-- Nil-dereference freedom for a whole document. -/
def specSafe (spec : SwaggerSpec) : Bool :=
  spec.paths.all (fun pm => pm.2.all (fun md => endpointSafe spec md.2))

/-- An all-defaults configuration (`ApiConfig` zero value). -/
def cfgNone : ApiConfig := ⟨"", "", "", "", "", "", "", "", "", "", ""⟩

/-- A regex compiler oracle that rejects every pattern (never consulted by
the fixtures below, whose filter lists are empty). -/
def noCompile : String → Option (String → Bool) := fun _ => none

/-- Fixture: a dialect-1 operation whose single body parameter carries no
schema object (`param.Schema == nil`). -/
def epBodyless : Endpoint :=
  { summary := "s", description := "d",
    parameters := [⟨"payload", "body", true, "", none, ""⟩],
    requestBody := none, responses := [], consumes := [], produces := [] }

/-- Fixture: a dialect-1 document containing `epBodyless`. -/
def specBad : SwaggerSpec :=
  { host := "api.example.com", basePath := "/v1", swagger := "2.0", openapi := "",
    servers := [], components := none,
    paths := [("/a", [("get", epBodyless)])], definitions := [] }

/-- Fixture: a plain dialect-1 operation with one path parameter. -/
def epPlain : Endpoint :=
  { summary := "s", description := "d",
    parameters := [⟨"id", "path", true, "string", none, ""⟩],
    requestBody := none, responses := [], consumes := [], produces := [] }

/-- Fixture: a well-formed dialect-1 document. -/
def specOK : SwaggerSpec :=
  { host := "api.example.com", basePath := "/v1", swagger := "2.0", openapi := "",
    servers := [], components := none,
    paths := [("/pets/\x7bid\x7d", [("get", epPlain)])], definitions := [] }

/-- Fixture: schema of the items of the nested array. -/
def itemsSchemaW : SchemaRef :=
  SchemaRef.mk "object" "" [("qty", some (SchemaRef.mk "integer" "" [] [] none "" ""))] [] none "" ""

/-- Fixture: the same-named nested schema whose `items` is `itemsSchemaW`. -/
def spW : SchemaRef := SchemaRef.mk "" "" [] [] (some itemsSchemaW) "" ""

/-- Fixture: a dialect-2 media-type schema with inline type `Order` and a
property named after the schema itself. -/
def schW : SchemaRef := SchemaRef.mk "Order" "" [("Order", some spW)] [] none "" ""

/-- Fixture: the `Order` definition with an array-typed property `lines`. -/
def defnW : Definition := ⟨"object", [("lines", ⟨"array"⟩)]⟩

/-- Fixture: a dialect-2 operation exercising the nested-array branch. -/
def epOrder : Endpoint :=
  { summary := "s", description := "d", parameters := [],
    requestBody := some ⟨"", false, [("application/json", ⟨some schW⟩)]⟩,
    responses := [], consumes := [], produces := [] }

/-- The descriptor derived from `specOK`. -/
def toolOK : ToolDescriptor :=
  { name := "get__pets_id",
    toolOptions := [ToolOption.stringInput "id" "The data for id" true,
      ToolOption.withDescription (usageDesc "s" "d")],
    pathParams := ["id"], queryParams := [], headerParams := [], body := [],
    url := "https://api.example.com/v1/pets/\x7bid\x7d", method := "get" }

/-- Fixture: a dialect-2 document containing `epOrder`. -/
def specOrder : SwaggerSpec :=
  { host := "", basePath := "", swagger := "", openapi := "3.0.0",
    servers := [⟨"http://x/", ""⟩], components := some ⟨[("Order", defnW)]⟩,
    paths := [("/orders", [("post", epOrder)])], definitions := [] }

/-- Fixture: a dialect-2 operation whose media type has no schema
(`mediaType.Schema == nil`). -/
def specBad2 : SwaggerSpec :=
  { host := "", basePath := "", swagger := "", openapi := "3.0.0",
    servers := [], components := some ⟨[]⟩,
    paths := [("/b", [("post",
      { summary := "s", description := "d", parameters := [],
        requestBody := some ⟨"", false, [("application/json", ⟨none⟩)]⟩,
        responses := [], consumes := [], produces := [] })])],
    definitions := [] }

/-- Fixture: a request body present while the components table is absent
(`swaggerSpec.Components == nil`). -/
def specBad3 : SwaggerSpec :=
  { host := "", basePath := "", swagger := "", openapi := "3.0.0",
    servers := [], components := none,
    paths := [("/c", [("post",
      { summary := "s", description := "d", parameters := [],
        requestBody := some ⟨"", false,
          [("application/json", ⟨some (SchemaRef.mk "T" "" [] [] none "" "")⟩)]⟩,
        responses := [], consumes := [], produces := [] })])],
    definitions := [] }

/-- The descriptor derived from `specOrder`. -/
def toolOrder : ToolDescriptor :=
  { name := "post__orders",
    toolOptions := [ToolOption.stringInput "qty" (itemPropDesc "qty" "integer") true,
      ToolOption.stringInput "lines" (bodyPropDesc "lines" "array") true,
      ToolOption.withDescription (usageDesc "s" "d")],
    pathParams := [], queryParams := [], headerParams := [],
    body := [("lines", "array")], url := "http://x/orders", method := "post" }

/-- Fixture: a bare outbound request. -/
def reqW : HttpRequest :=
  { method := "GET", url := { base := "http://h/p", query := [] }, headers := [], cookies := [],
    body := [] }

/-- One per-run enumeration of the Go paths table
(`map[string]map[string]models.Endpoint`): a `range` loop visits the outer
map's entries in a per-run randomized order, and each inner method map
likewise, so a run sees some permutation of the outer entry list in which
every inner entry list is itself permuted (keys and values intact). -/
def MapEnum (p q : List (String × List (String × Endpoint))) : Prop :=
  ∃ r, p.Perm r ∧ List.Forall₂ (fun a b => a.1 = b.1 ∧ a.2.Perm b.2) r q

/-- Fixture: a parameterless, bodyless operation. -/
def epBare : Endpoint :=
  { summary := "s", description := "d", parameters := [],
    requestBody := none, responses := [], consumes := [], produces := [] }

/-- Fixture: a two-path document, written in one of the two enumeration
orders of its paths map. -/
def specTwo : SwaggerSpec :=
  { host := "api.example.com", basePath := "", swagger := "2.0", openapi := "",
    servers := [], components := none,
    paths := [("/a", [("get", epBare)]), ("/b", [("get", epBare)])],
    definitions := [] }

/-- The same document under the opposite enumeration order of its paths
map. -/
def specTwoSwap : SwaggerSpec :=
  { specTwo with paths := [("/b", [("get", epBare)]), ("/a", [("get", epBare)])] }

/-- The descriptor derived for `get /a` of `specTwo`. -/
def toolTwoA : ToolDescriptor :=
  { name := "get__a",
    toolOptions := [ToolOption.withDescription (usageDesc "s" "d")],
    pathParams := [], queryParams := [], headerParams := [], body := [],
    url := "https://api.example.com/a", method := "get" }

/-- The descriptor derived for `get /b` of `specTwo`. -/
def toolTwoB : ToolDescriptor :=
  { toolTwoA with name := "get__b", url := "https://api.example.com/b" }

/-! ## Supporting lemmas -/

lemma splitOnChar_cons (sep c : Char) (cs : List Char) :
    splitOnChar sep (c :: cs) =
      match splitOnChar sep cs with
      | [] => if c = sep then [[], []] else [[c]]
      | h :: t => if c = sep then [] :: h :: t else (c :: h) :: t := rfl

lemma splitOnChar_ne_nil (sep : Char) (cs : List Char) : splitOnChar sep cs ≠ [] := by
  induction cs with
  | nil => simp [splitOnChar]
  | cons c cs ih =>
    rw [splitOnChar_cons]
    cases hs : splitOnChar sep cs with
    | nil => exact absurd hs ih
    | cons hd tl => by_cases hc : c = sep <;> simp [hc]

lemma splitOnChar_no_sep (sep : Char) (cs : List Char) (h : sep ∉ cs) :
    splitOnChar sep cs = [cs] := by
  induction cs with
  | nil => simp [splitOnChar]
  | cons c cs ih =>
    simp only [List.mem_cons, not_or] at h
    rw [splitOnChar_cons, ih h.2]
    have : ¬ c = sep := fun he => h.1 (he ▸ rfl)
    simp [this]

lemma splitOnChar_two_le (sep : Char) (cs : List Char) (h : sep ∈ cs) :
    2 ≤ (splitOnChar sep cs).length := by
  induction cs with
  | nil => cases h
  | cons c cs ih =>
    rw [splitOnChar_cons]
    cases hs : splitOnChar sep cs with
    | nil => exact absurd hs (splitOnChar_ne_nil sep cs)
    | cons hd tl =>
      rcases List.mem_cons.mp h with rfl | hmem
      · simp
      · have h2 := ih hmem
        rw [hs] at h2
        simp only [List.length_cons] at h2
        by_cases hc : c = sep
        · simp [hc]
        · simp [hc]
          omega

lemma takeWhile_append_one (p : Char → Bool) (xs : List Char) (a : Char) :
    (xs ++ [a]).takeWhile p =
      if xs.all p then xs ++ (if p a then [a] else []) else xs.takeWhile p := by
  induction xs with
  | nil => cases hpa : p a <;> simp [List.takeWhile, hpa]
  | cons x xs ih =>
    cases hx : p x with
    | true =>
      simp only [List.cons_append, List.takeWhile_cons, hx, ih, List.all_cons, Bool.true_and]
      by_cases hall : xs.all p <;> simp [hall]
    | false => simp [List.takeWhile_cons, hx, List.all_cons]

lemma all_ne_iff_not_mem (sep : Char) (cs : List Char) :
    cs.reverse.all (fun c => c != sep) = true ↔ sep ∉ cs := by
  simp [List.all_eq_true]
  constructor
  · intro h hmem
    exact h sep hmem rfl
  · intro h c hmem he
    exact h (he ▸ hmem)

lemma getLastD_splitOnChar (sep : Char) (cs : List Char) :
    (splitOnChar sep cs).getLastD [] = (cs.reverse.takeWhile (fun c => c != sep)).reverse := by
  induction cs with
  | nil => simp [splitOnChar]
  | cons c cs ih =>
    rw [splitOnChar_cons, List.reverse_cons, takeWhile_append_one]
    cases hs : splitOnChar sep cs with
    | nil => exact absurd hs (splitOnChar_ne_nil sep cs)
    | cons hd tl =>
      rw [hs] at ih
      by_cases hc : c = sep
      · subst hc
        simp only [if_pos rfl, bne_self_eq_false, Bool.false_eq_true, if_false, List.append_nil]
        by_cases hall : cs.reverse.all (fun x => x != c) = true
        · rw [if_pos hall]
          have hnm : c ∉ cs := (all_ne_iff_not_mem c cs).mp hall
          rw [splitOnChar_no_sep c cs hnm] at hs
          cases hs
          have : cs.reverse.takeWhile (fun x => x != c) = cs.reverse :=
            List.takeWhile_eq_self_iff.mpr (List.all_eq_true.mp hall)
          rw [this] at ih
          exact ih
        · rw [if_neg hall]
          exact ih
      · have hpc : (c != sep) = true := by simp [hc]
        simp only [if_neg hc, hpc, if_pos rfl]
        cases tl with
        | nil =>
          have hnm : sep ∉ cs := by
            intro hmem
            have := splitOnChar_two_le sep cs hmem
            rw [hs] at this
            simp at this
          rw [splitOnChar_no_sep sep cs hnm] at hs
          cases hs
          rw [if_pos ((all_ne_iff_not_mem sep cs).mpr hnm)]
          simp [List.getLastD]
        | cons t0 ts =>
          have hmem : sep ∈ cs := by
            by_contra hnm
            rw [splitOnChar_no_sep sep cs hnm] at hs
            cases hs
          rw [if_neg (fun hall => absurd ((all_ne_iff_not_mem sep cs).mp hall) (fun h => h hmem))]
          simp only [List.getLastD_cons] at ih ⊢
          exact ih

lemma getLastD_map_mk (l : List (List Char)) (d : List Char) :
    (l.map String.mk).getLastD (String.mk d) = String.mk (l.getLastD d) := by
  induction l generalizing d with
  | nil => rfl
  | cons a l ih => simp only [List.map_cons, List.getLastD_cons, ih]

/-! ## Claim theorems -/

/-- **C8** Schema-name extraction is a pure function such that, whenever the
reference string is non-empty, the result is the substring after the last
`/` of the reference (the reference wins over any inline type), and
otherwise the result is the inline type string itself. -/
theorem extractSchemaNameSpec (ref schemaType : String) :
    (ref ≠ "" → ExtractSchemaName ref schemaType = afterLastSlash ref) ∧
    (ref = "" → ExtractSchemaName ref schemaType = schemaType) := by
  constructor
  · intro h
    unfold ExtractSchemaName goSplitChar afterLastSlash
    rw [if_pos h]
    have hmk : ("" : String) = String.mk [] := rfl
    rw [hmk, getLastD_map_mk, getLastD_splitOnChar]
  · intro h
    unfold ExtractSchemaName
    rw [if_neg (fun hne => hne h)]

/-- Witness for C8 at the reference `#/definitions/Pet` and at an empty
reference with inline type `Pet`. -/
theorem extractSchemaNameSpecWitness :
    ExtractSchemaName "#/definitions/Pet" "X" = afterLastSlash "#/definitions/Pet" ∧
    ExtractSchemaName "" "Pet" = "Pet" :=
  ⟨(extractSchemaNameSpec "#/definitions/Pet" "X").1 (by decide),
   (extractSchemaNameSpec "" "Pet").2 rfl⟩

lemma shouldIncludePath_eq (path : String) (inc exc : List (String → Bool)) :
    shouldIncludePath path inc exc =
      ((inc.isEmpty || inc.any fun r => r path) && !(exc.any fun r => r path)) := by
  unfold shouldIncludePath
  by_cases h1 : (inc.isEmpty || inc.any fun r => r path) = true
  · rw [h1]
    by_cases h2 : (exc.any fun r => r path) = true <;> simp [h2]
  · simp only [Bool.not_eq_true] at h1
    rw [h1]
    simp

/-- **C4** For every path P: with an empty include list, the path filter
accepts P iff no pattern in the exclude list matches P; with a non-empty
include list and an empty exclude list, it accepts P iff some include
pattern matches P; and any exclude-pattern match vetoes P regardless of the
include result. -/
theorem pathFilterSpec (path : String) (includeRegexes excludeRegexes : List (String → Bool)) :
    (shouldIncludePath path [] excludeRegexes = true ↔
      ∀ regex ∈ excludeRegexes, regex path = false) ∧
    (includeRegexes ≠ [] →
      (shouldIncludePath path includeRegexes [] = true ↔
        ∃ regex ∈ includeRegexes, regex path = true)) ∧
    (∀ regex ∈ excludeRegexes, regex path = true →
      shouldIncludePath path includeRegexes excludeRegexes = false) := by
  refine ⟨?_, ?_, ?_⟩
  · rw [shouldIncludePath_eq]
    simp [List.any_eq_false]
  · intro hne
    have hie : includeRegexes.isEmpty = false := by
      cases includeRegexes with
      | nil => exact absurd rfl hne
      | cons a l => rfl
    rw [shouldIncludePath_eq]
    simp [hie, List.any_eq_true]
  · intro r hr hm
    have hany : excludeRegexes.any (fun regex => regex path) = true :=
      List.any_eq_true.mpr ⟨r, hr, hm⟩
    rw [shouldIncludePath_eq, hany]
    simp

/-- Witness for C4 at the path `/pets` with concrete match functions. -/
theorem pathFilterSpecWitness :
    shouldIncludePath "/pets" [] [fun s => s == "/admin"] = true ∧
    shouldIncludePath "/pets" [fun s => s == "/pets"] [] = true ∧
    shouldIncludePath "/pets" [fun s => s == "/pets"] [fun s => s == "/pets"] = false := by
  refine ⟨?_, ?_, ?_⟩
  · exact (pathFilterSpec "/pets" [] [fun s => s == "/admin"]).1.mpr
      (by intro r hr; rw [List.mem_singleton.mp hr]; rfl)
  · exact ((pathFilterSpec "/pets" [fun s => s == "/pets"] []).2.1 (by simp)).mpr
      ⟨fun s => s == "/pets", List.mem_singleton.mpr rfl, rfl⟩
  · exact (pathFilterSpec "/pets" [fun s => s == "/pets"] [fun s => s == "/pets"]).2.2
      (fun s => s == "/pets") (List.mem_singleton.mpr rfl) rfl

/-- Splitting an `Except` bind on its first component. -/
lemma except_bind_ok {α β : Type} (e : Except String α) (f : α → Except String β) (b : β)
    (h : (e >>= f) = Except.ok b) : ∃ a, e = Except.ok a ∧ f a = Except.ok b := by
  cases e with
  | error msg => cases h
  | ok a => exact ⟨a, rfl, h⟩

/-- Every field of a successfully derived descriptor, as a function of its
inputs. -/
lemma deriveTool_ok_fields (spec : SwaggerSpec) (apiCfg : ApiConfig) (path method : String)
    (details : Endpoint) (d : ToolDescriptor)
    (h : deriveTool spec apiCfg path method details = Except.ok d) :
    d.name = toolNameFor method path ∧ d.url = computeReqURL spec apiCfg path ∧
    d.method = method ∧
    d.pathParams = (paramOptionsFor "path" details.parameters).2 ∧
    d.queryParams = (paramOptionsFor "query" details.parameters).2 ∧
    d.headerParams = (paramOptionsFor "header" details.parameters).2 := by
  unfold deriveTool at h
  obtain ⟨acc1, h1, h⟩ := except_bind_ok _ _ _ h
  obtain ⟨acc2, h2, h⟩ := except_bind_ok _ _ _ h
  cases h
  exact ⟨rfl, rfl, rfl, rfl, rfl, rfl⟩

/-- A successful `mapM` over `Except` maps each element to the result at
the same position. -/
lemma mapM_except_ok {α β : Type} (f : α → Except String β) :
    ∀ (l : List α) (ys : List β), l.mapM f = Except.ok ys →
      ys.length = l.length ∧
      ∀ i (hi : i < ys.length) (hj : i < l.length),
        f (l.get ⟨i, hj⟩) = Except.ok (ys.get ⟨i, hi⟩) := by
  intro l
  induction l with
  | nil =>
    intro ys h
    cases h
    exact ⟨rfl, fun i hi hj => absurd hj (by simp)⟩
  | cons a l ih =>
    intro ys h
    rw [List.mapM_cons] at h
    obtain ⟨y, hy, h⟩ := except_bind_ok _ _ _ h
    obtain ⟨ys1, hys1, h⟩ := except_bind_ok _ _ _ h
    cases h
    obtain ⟨hlen, hget⟩ := ih ys1 hys1
    refine ⟨by simp [hlen], fun i hi hj => ?_⟩
    cases i with
    | zero => simpa using hy
    | succ j =>
      simp only [List.get_cons_succ]
      exact hget j (by simpa using hi) (by simpa using hj)

/-- **C3** For every retained operation, the request URL is derived as: a
non-empty `config.baseUrl` is used verbatim; otherwise a dialect-2 document
(non-empty `openapi` marker) uses the first declared server URL with its
trailing slash stripped, or `/` when no servers are declared, while a
dialect-1 document prefixes `host` with `https://` when it carries no
`http://`/`https://` scheme and appends `basePath` with a single `/` join;
the final URL is the base URL with trailing slash stripped, plus `/`, plus
the operation path with leading slash stripped.  In particular
`host="api.example.com"`, `basePath="/v1"` yields
`https://api.example.com/v1`, and `servers=[{url:"http://x/"}]` yields
`http://x`. -/
theorem baseUrlDerivation (spec : SwaggerSpec) (apiCfg : ApiConfig) (path : String) :
    (∀ method details d, deriveTool spec apiCfg path method details = Except.ok d →
      d.url = goTrimSuffix (computeBaseURL spec apiCfg) "/" ++ "/" ++ goTrimLeading path "/") ∧
    (apiCfg.baseUrl ≠ "" → computeBaseURL spec apiCfg = apiCfg.baseUrl) ∧
    (apiCfg.baseUrl = "" → spec.openapi ≠ "" →
      ∀ server rest, spec.servers = server :: rest →
        computeBaseURL spec apiCfg = goTrimSuffix server.url "/") ∧
    (apiCfg.baseUrl = "" → spec.openapi ≠ "" → spec.servers = [] →
      computeBaseURL spec apiCfg = "/") ∧
    (apiCfg.baseUrl = "" → spec.openapi = "" →
      goStartsWith spec.host "http://" = false → goStartsWith spec.host "https://" = false →
      spec.basePath ≠ "" →
      computeBaseURL spec apiCfg =
        goTrimSuffix ("https://" ++ spec.host) "/" ++ "/" ++ goTrimLeading spec.basePath "/") ∧
    (apiCfg.baseUrl = "" → spec.openapi = "" → spec.host = "api.example.com" →
      spec.basePath = "/v1" → computeBaseURL spec apiCfg = "https://api.example.com/v1") ∧
    (apiCfg.baseUrl = "" → spec.openapi ≠ "" →
      ∀ desc rest, spec.servers = Server.mk "http://x/" desc :: rest →
        computeBaseURL spec apiCfg = "http://x") := by
  refine ⟨?_, ?_, ?_, ?_, ?_, ?_, ?_⟩
  · intro method details d h
    exact (deriveTool_ok_fields spec apiCfg path method details d h).2.1
  · intro h
    unfold computeBaseURL
    rw [if_neg (fun he => h he)]
  · intro h1 h2 server rest hs
    unfold computeBaseURL
    rw [if_pos h1, if_pos h2, hs]
  · intro h1 h2 hs
    unfold computeBaseURL
    rw [if_pos h1, if_pos h2, hs]
  · intro h1 h2 hp1 hp2 hbp
    unfold computeBaseURL
    rw [if_pos h1, if_neg (fun hne => hne h2)]
    simp [hp1, hp2, hbp]
  · intro h1 h2 hh hbp
    unfold computeBaseURL
    rw [if_pos h1, if_neg (fun hne => hne h2), hh, hbp]
    decide
  · intro h1 h2 desc rest hs
    unfold computeBaseURL
    rw [if_pos h1, if_pos h2, hs]
    show goTrimSuffix "http://x/" "/" = "http://x"
    decide

/-- Witness for C3: both concrete derivations of the claim, plus the
descriptor-level final URL over `specOK`. -/
theorem baseUrlDerivationWitness :
    toolOK.url = goTrimSuffix (computeBaseURL specOK cfgNone) "/" ++ "/" ++
      goTrimLeading "/pets/\x7bid\x7d" "/" ∧
    computeBaseURL specOK cfgNone = "https://api.example.com/v1" ∧
    computeBaseURL specOrder cfgNone = "http://x" := by
  refine ⟨?_, ?_, ?_⟩
  · exact (baseUrlDerivation specOK cfgNone "/pets/\x7bid\x7d").1 "get" epPlain toolOK (by rfl)
  · exact (baseUrlDerivation specOK cfgNone "").2.2.2.2.2.1 rfl rfl rfl rfl
  · exact (baseUrlDerivation specOrder cfgNone "").2.2.2.2.2.2 rfl (by decide) "" []
      rfl

/-- **C5** For every retained (path, method) pair, exactly one tool
descriptor is produced — the descriptor list is in positional one-to-one
correspondence with the retained operation list — and its name is a
deterministic pure function of method and path (`toolNameFor`), truncated
to at most 40 characters. -/
theorem toolNamePerOperation (compile : String → Option (String → Bool)) (spec : SwaggerSpec)
    (apiCfg : ApiConfig) (ds : List ToolDescriptor)
    (h : deriveTools compile spec apiCfg = Except.ok ds) :
    ds.length = (retainedOpsOf compile spec apiCfg).length ∧
    (∀ i (hi : i < ds.length) (hj : i < (retainedOpsOf compile spec apiCfg).length),
      (ds.get ⟨i, hi⟩).name =
        toolNameFor ((retainedOpsOf compile spec apiCfg).get ⟨i, hj⟩).2.1
          ((retainedOpsOf compile spec apiCfg).get ⟨i, hj⟩).1 ∧
      (ds.get ⟨i, hi⟩).method = ((retainedOpsOf compile spec apiCfg).get ⟨i, hj⟩).2.1) ∧
    (∀ method path, (toolNameFor method path).length ≤ 40) := by
  unfold deriveTools at h
  obtain ⟨hlen, hget⟩ := mapM_except_ok _ _ _ h
  refine ⟨hlen, fun i hi hj => ?_, fun method path => ?_⟩
  · have := hget i hi hj
    obtain ⟨hname, _, hmethod, _⟩ :=
      deriveTool_ok_fields spec apiCfg _ _ _ _ this
    exact ⟨hname, hmethod⟩
  · unfold toolNameFor
    by_cases h40 : 40 ≤ (method ++ "_" ++
        replaceAllChar (Char.ofNat 123) "" (replaceAllChar (Char.ofNat 125) "" (replaceAllChar '/' "_" path))).length
    · rw [if_pos h40]
      have : ∀ cs : List Char, (String.mk cs).length = cs.length := fun cs => rfl
      rw [this, List.length_take]
      exact Nat.min_le_left _ _
    · rw [if_neg h40]
      omega

/-- Witness for C5 over `specOK`, whose single retained operation is
(`/pets/{id}`, `get`). -/
theorem toolNamePerOperationWitness :
    ([toolOK] : List ToolDescriptor).length = (retainedOpsOf noCompile specOK cfgNone).length ∧
    toolOK.name = toolNameFor "get" "/pets/\x7bid\x7d" :=
  ⟨(toolNamePerOperation noCompile specOK cfgNone [toolOK] (by rfl)).1,
   by
    have := (toolNamePerOperation noCompile specOK cfgNone [toolOK] (by rfl)).2.1 0
      (by decide) (by decide)
    exact this.1⟩

lemma alookup_cons {β : Type} (k : String) (kv : String × β) (l : List (String × β)) :
    alookup k (kv :: l) = if k = kv.1 then some kv.2 else alookup k l := rfl

lemma alookup_append {β : Type} (k : String) (l1 l2 : List (String × β)) :
    alookup k (l1 ++ l2) =
      (match alookup k l1 with
       | some v => some v
       | none => alookup k l2) := by
  induction l1 with
  | nil => rfl
  | cons kv l1 ih =>
    rw [List.cons_append, alookup_cons, alookup_cons]
    by_cases h2 : k = kv.1
    · rw [if_pos h2, if_pos h2]
    · rw [if_neg h2, if_neg h2, ih]

lemma alookup_filter_other (k k2 : String) (h : k2 ≠ k) (q : List (String × String)) :
    alookup k2 (q.filter (fun kv => kv.1 ≠ k)) = alookup k2 q := by
  induction q with
  | nil => rfl
  | cons kv q ih =>
    rw [List.filter_cons, alookup_cons]
    by_cases hk : kv.1 = k
    · have hp : (decide (kv.1 ≠ k)) = false := by simp [hk]
      rw [hp]
      simp only [Bool.false_eq_true, if_false]
      rw [ih, if_neg (fun he : k2 = kv.1 => h (he.trans hk))]
    · have hp : (decide (kv.1 ≠ k)) = true := by simp [hk]
      rw [hp]
      simp only [if_true]
      rw [alookup_cons]
      by_cases h2 : k2 = kv.1
      · rw [if_pos h2, if_pos h2]
      · rw [if_neg h2, if_neg h2, ih]

lemma alookup_last (k v : String) (l : List (String × String))
    (h : ∀ kv ∈ l, kv.1 ≠ k) : alookup k (l ++ [(k, v)]) = some v := by
  induction l with
  | nil => simp [alookup]
  | cons kv l ih =>
    have hne : ¬ k = kv.1 := fun he => h kv (by simp) he.symm
    rw [List.cons_append, alookup_cons, if_neg hne]
    exact ih (fun x hx => h x (by simp [hx]))

lemma filter_ne_key (k : String) (q : List (String × String)) :
    ∀ kv ∈ q.filter (fun kv => kv.1 ≠ k), kv.1 ≠ k := by
  intro kv h
  simpa using List.of_mem_filter h

/-- `url.Values.Set` overwrites: the set key reads back the new value. -/
lemma alookup_querySet_self (q : List (String × String)) (k v : String) :
    alookup k (querySet q k v) = some v :=
  alookup_last k v _ (filter_ne_key k q)

/-- `url.Values.Set` leaves every other key unchanged. -/
lemma alookup_querySet_other (q : List (String × String)) (k v k2 : String) (h : k2 ≠ k) :
    alookup k2 (querySet q k v) = alookup k2 q := by
  unfold querySet
  rw [alookup_append, alookup_filter_other k k2 h q, alookup_cons, if_neg h]
  cases alookup k2 q <;> rfl

/-- Evaluating the apiKey mode with the single entry `query:token=abc123`:
only the pending query merge remains. -/
lemma setRequestSecurity_apiKey_query (req : HttpRequest) (b t : String) :
    setRequestSecurity req "apiKey" b "query:token=abc123" t =
      { mergeQueryValues req [("token", "abc123")] with
        cookies := (mergeQueryValues req [("token", "abc123")]).cookies ++ [] } := rfl

/-- The pending query merge under a successful URL re-parse. -/
lemma mergeQueryValues_single (req : HttpRequest) (u : URLModel)
    (hu : goURLParse (urlToString req.url) = some u) :
    mergeQueryValues req [("token", "abc123")] =
      { req with url := { u with query := querySet u.query "token" "abc123" } } := by
  unfold mergeQueryValues
  simp only [hu]
  rfl

/-- **C6** Applying security with mode `apiKey` and credential string
`query:token=abc123` to a request results in the request's query containing
`token=abc123` and no `Authorization` header being set; more generally the
apiKey credential string is parsed as comma-separated `location:name=value`
entries where entries missing `:` or `=`, or whose `=` occurs before the
`:` position plus 2, are skipped individually, `header` entries set a
request header, `query` entries overwrite same-named query values, `cookie`
entries are appended as cookies, and other locations are ignored. -/
theorem apiKeyInjection :
    (∀ (req : HttpRequest) (b t : String) (u : URLModel),
      goURLParse (urlToString req.url) = some u →
      alookup "token" (setRequestSecurity req "apiKey" b "query:token=abc123" t).url.query =
        some "abc123" ∧
      (setRequestSecurity req "apiKey" b "query:token=abc123" t).headers = req.headers ∧
      (headerGet req.headers "Authorization" = none →
        headerGet (setRequestSecurity req "apiKey" b "query:token=abc123" t).headers
          "Authorization" = none)) ∧
    (∀ st part0,
      (match charIndex ':' (goTrimSpace part0).data, charIndex '=' (goTrimSpace part0).data with
       | some colonIdx, some eqIdx => eqIdx < colonIdx + 2
       | _, _ => True) →
      apiKeyPartStep st part0 = st) ∧
    (∀ q k v, alookup k (querySet q k v) = some v) ∧
    (∀ q k v k2, k2 ≠ k → alookup k2 (querySet q k v) = alookup k2 q) ∧
    (∀ st, apiKeyPartStep st "header:X-Key=k1" =
      ({ st.1 with headers := headerSet st.1.headers "X-Key" "k1" }, st.2.1, st.2.2)) ∧
    (∀ st, apiKeyPartStep st "cookie:sid=ccc" = (st.1, st.2.1, st.2.2 ++ [("sid", "ccc")])) ∧
    (∀ st, apiKeyPartStep st "dance:sid=x" = st) := by
  refine ⟨?_, ?_, alookup_querySet_self, fun q k v k2 h => alookup_querySet_other q k v k2 h,
    fun st => rfl, fun st => rfl, fun st => rfl⟩
  · intro req b t u hu
    rw [setRequestSecurity_apiKey_query, mergeQueryValues_single req u hu]
    refine ⟨alookup_querySet_self u.query "token" "abc123", rfl, fun h => h⟩
  · intro st part0 hcond
    unfold apiKeyPartStep
    by_cases hp : goTrimSpace part0 = ""
    · simp [hp]
    · simp only [hp, if_false]
      split
      · rename_i colonIdx eqIdx heq1 heq2
        rw [heq1, heq2] at hcond
        simp only [] at hcond
        rw [if_pos hcond]
      · rfl

/-- Witness for C6 over `reqW` and the claim's credential, plus a skipped
malformed entry. -/
theorem apiKeyInjectionWitness :
    alookup "token" (setRequestSecurity reqW "apiKey" "" "query:token=abc123" "").url.query =
      some "abc123" ∧
    headerGet (setRequestSecurity reqW "apiKey" "" "query:token=abc123" "").headers
      "Authorization" = none ∧
    apiKeyPartStep (reqW, [], []) "broken" = (reqW, [], []) := by
  obtain ⟨h1, h2, h3⟩ :=
    apiKeyInjection.1 reqW "" "" { base := "http://h/p", query := [] } (by rfl)
  exact ⟨h1, h3 (by rfl), apiKeyInjection.2.1 (reqW, [], []) "broken" (by trivial)⟩

lemma isPrefixOf_append (l1 l2 : List Char) : l1.isPrefixOf (l1 ++ l2) = true := by
  induction l1 with
  | nil => simp [List.isPrefixOf]
  | cons a l ih => simp [List.isPrefixOf, ih]

/-- A string literally built as `a ++ b` starts with `a`. -/
lemma goStartsWith_append (a b : String) : goStartsWith (a ++ b) a = true := by
  unfold goStartsWith
  rw [String.data_append]
  exact isPrefixOf_append a.data b.data

/-- When some declared path parameter has no string argument, the path
substitution loop fails with the error of the first such parameter. -/
lemma substPathParams_error (args : List (String × ArgVal)) :
    ∀ (ps : List String) (url : String), (∃ p ∈ ps, argString args p = none) →
      ∃ q ∈ ps, argString args q = none ∧
        substPathParams args ps url =
          Except.error ("[Error] missing or invalid Path Parameter: " ++ q) := by
  intro ps
  induction ps with
  | nil => exact fun url h => absurd h.choose_spec.1 (List.not_mem_nil _)
  | cons p0 rest ih =>
    intro url hex
    cases h0 : argString args p0 with
    | none =>
      exact ⟨p0, List.mem_cons_self p0 rest, h0, by rw [substPathParams, h0]⟩
    | some v =>
      obtain ⟨p, hp, hnone⟩ := hex
      have hpr : p ∈ rest := by
        rcases List.mem_cons.mp hp with rfl | h
        · rw [h0] at hnone; cases hnone
        · exact h
      obtain ⟨q, hq, hqn, heq⟩ :=
        ih (goReplaceFirst url ("\x7b" ++ p0 ++ "\x7d") v) ⟨p, hpr, hnone⟩
      exact ⟨q, List.mem_cons_of_mem p0 hq, hqn, by rw [substPathParams, h0]; exact heq⟩

/-- **C1** For every tool descriptor with at least one declared path
parameter, invoking its handler with an ArgumentMap that lacks that
parameter (or maps it to a non-string value) returns a text result
beginning with `[Error]` that names the (first such) parameter, returned as
a successful protocol result (`HandlerOutcome.errorText` models the
`(result, nil)` return of the Go handler), and no outbound HTTP call is
attempted (the outcome is not a dispatch). -/
theorem pathParamMissingError
    (reqPathParam reqQueryParam : List String) (reqURL : String)
    (reqBody : List (String × String)) (reqMethod : String) (reqHeader : List String)
    (apiCfg : ApiConfig) (args : List (String × ArgVal))
    (sseHeaders : Option (List (String × String))) (p : String)
    (hp : p ∈ reqPathParam) (hmiss : argString args p = none) :
    ∃ q ∈ reqPathParam, argString args q = none ∧
      toolHandler reqPathParam reqQueryParam reqURL reqBody reqMethod reqHeader apiCfg args
          sseHeaders =
        HandlerOutcome.errorText ("[Error] missing or invalid Path Parameter: " ++ q) ∧
      goStartsWith ("[Error] missing or invalid Path Parameter: " ++ q) "[Error]" = true ∧
      ∀ req, toolHandler reqPathParam reqQueryParam reqURL reqBody reqMethod reqHeader apiCfg
          args sseHeaders ≠ HandlerOutcome.dispatch req := by
  obtain ⟨q, hq, hqn, heq⟩ :=
    substPathParams_error args reqPathParam reqURL ⟨p, hp, hmiss⟩
  have hout : toolHandler reqPathParam reqQueryParam reqURL reqBody reqMethod reqHeader apiCfg
      args sseHeaders =
      HandlerOutcome.errorText ("[Error] missing or invalid Path Parameter: " ++ q) := by
    unfold toolHandler
    rw [heq]
  refine ⟨q, hq, hqn, hout, ?_, fun req hdis => ?_⟩
  · have hsplit : ("[Error] missing or invalid Path Parameter: " : String) =
        "[Error]" ++ " missing or invalid Path Parameter: " := by decide
    rw [hsplit, String.append_assoc]
    exact goStartsWith_append "[Error]" (" missing or invalid Path Parameter: " ++ q)
  · rw [hout] at hdis
    cases hdis

/-- Witness for C1: one declared path parameter `id`, an empty ArgumentMap. -/
theorem pathParamMissingErrorWitness :
    ∃ q ∈ ["id"], argString [] q = none ∧
      toolHandler ["id"] [] "https://api.example.com/v1/pets/\x7bid\x7d" [] "get" [] cfgNone []
          none =
        HandlerOutcome.errorText ("[Error] missing or invalid Path Parameter: " ++ q) ∧
      goStartsWith ("[Error] missing or invalid Path Parameter: " ++ q) "[Error]" = true ∧
      ∀ req, toolHandler ["id"] [] "https://api.example.com/v1/pets/\x7bid\x7d" [] "get" []
          cfgNone [] none ≠ HandlerOutcome.dispatch req :=
  pathParamMissingError ["id"] [] "https://api.example.com/v1/pets/\x7bid\x7d" [] "get" []
    cfgNone [] none "id" (List.mem_singleton.mpr rfl) rfl

/-- Reducing a bind of a known-ok `Except`. -/
lemma except_ok_bind {α β : Type} (a : α) (f : α → Except String β) :
    (Except.ok a >>= f) = f a := rfl

lemma mapM_ok_of_all {α β : Type} (f : α → Except String β) (l : List α)
    (h : ∀ x ∈ l, ∃ y, f x = Except.ok y) : ∃ ys, l.mapM f = Except.ok ys := by
  induction l with
  | nil => exact ⟨[], rfl⟩
  | cons a l ih =>
    obtain ⟨y, hy⟩ := h a (List.mem_cons_self a l)
    obtain ⟨ys, hys⟩ := ih (fun x hx => h x (List.mem_cons_of_mem a hx))
    exact ⟨y :: ys, by rw [List.mapM_cons, hy, except_ok_bind, hys, except_ok_bind]; rfl⟩

lemma foldlM_cons {α β : Type} (f : β → α → Except String β) (acc : β) (a : α) (l : List α) :
    List.foldlM f acc (a :: l) = (f acc a >>= fun acc2 => List.foldlM f acc2 l) := rfl

lemma foldlM_ok_of_all {α β : Type} (f : β → α → Except String β) (l : List α)
    (h : ∀ x ∈ l, ∀ acc, ∃ acc2, f acc x = Except.ok acc2) :
    ∀ acc, ∃ acc2, List.foldlM f acc l = Except.ok acc2 := by
  induction l with
  | nil => exact fun acc => ⟨acc, rfl⟩
  | cons a l ih =>
    intro acc
    obtain ⟨acc1, h1⟩ := h a (List.mem_cons_self a l) acc
    obtain ⟨acc2, h2⟩ := ih (fun x hx acc => h x (List.mem_cons_of_mem a hx) acc) acc1
    exact ⟨acc2, by rw [foldlM_cons, h1, except_ok_bind, h2]⟩

lemma bodyParamStep_body_some (defs : List (String × Definition))
    (acc : List ToolOption × List (String × String)) (param : Parameter) (schema : SchemaRef)
    (hb : param.paramIn = "body") (hs : param.schema = some schema) :
    bodyParamStep defs acc param =
      (match alookup (ExtractSchemaName schema.ref param.type) defs with
       | some definition =>
         Except.ok (definition.properties.foldl
           (fun a pp =>
             (a.1 ++ [ToolOption.stringInput pp.1 (bodyPropDesc pp.1 pp.2.type) true],
              mapSet a.2 pp.1 pp.2.type)) acc)
       | none => Except.ok acc) := by
  unfold bodyParamStep
  rw [if_pos hb, hs]

lemma bodyParamStep_ok (defs : List (String × Definition)) (param : Parameter)
    (hsafe : (param.paramIn ≠ "body" || param.schema.isSome) = true) :
    ∀ acc, ∃ acc2, bodyParamStep defs acc param = Except.ok acc2 := by
  intro acc
  by_cases hb : param.paramIn = "body"
  · cases hs : param.schema with
    | none =>
      rw [hb, hs] at hsafe
      simp at hsafe
    | some schema =>
      rw [bodyParamStep_body_some defs acc param schema hb hs]
      cases halk : alookup (ExtractSchemaName schema.ref param.type) defs with
      | some definition => exact ⟨_, rfl⟩
      | none => exact ⟨acc, rfl⟩
  · exact ⟨acc, by unfold bodyParamStep; rw [if_neg hb]⟩

lemma itemOptions_some (sch : SchemaRef) (schemaName : String) (sp : SchemaRef)
    (hl : lookupPtr schemaName sch.properties = some sp) :
    itemOptions sch schemaName =
      (match sp.items with
       | none => Except.error nilderef
       | some itemsSchema =>
         itemsSchema.properties.mapM
           (fun ip =>
             match ip.2 with
             | none => Except.error nilderef
             | some prop =>
               Except.ok (ToolOption.stringInput ip.1 (itemPropDesc ip.1 prop.type) true))) := by
  unfold itemOptions
  rw [hl]

lemma itemOptions_ok (sch : SchemaRef) (schemaName : String)
    (hsafe : ∀ sp, lookupPtr schemaName sch.properties = some sp →
      ∃ itemsSchema, sp.items = some itemsSchema ∧
        ∀ ip ∈ itemsSchema.properties, ip.2.isSome = true) :
    ∃ opts, itemOptions sch schemaName = Except.ok opts := by
  cases hl : lookupPtr schemaName sch.properties with
  | none => exact ⟨[], by unfold itemOptions; rw [hl]⟩
  | some sp =>
    rw [itemOptions_some sch schemaName sp hl]
    obtain ⟨itemsSchema, hits, hprops⟩ := hsafe sp hl
    rw [hits]
    apply mapM_ok_of_all
    intro ip hip
    cases hip2 : ip.2 with
    | none =>
      have := hprops ip hip
      rw [hip2] at this
      simp at this
    | some prop => exact ⟨_, rfl⟩

lemma contentPropStep_ok (sch : SchemaRef) (schemaName : String) (pp : String × Property)
    (hsafe : pp.2.type = "array" →
      ∀ sp, lookupPtr schemaName sch.properties = some sp →
        ∃ itemsSchema, sp.items = some itemsSchema ∧
          ∀ ip ∈ itemsSchema.properties, ip.2.isSome = true) :
    ∀ acc, ∃ acc2, contentPropStep sch schemaName acc pp = Except.ok acc2 := by
  intro acc
  unfold contentPropStep
  by_cases harr : pp.2.type = "array"
  · obtain ⟨opts, hopts⟩ := itemOptions_ok sch schemaName (hsafe harr)
    rw [if_pos harr, hopts, except_ok_bind]
    exact ⟨_, rfl⟩
  · rw [if_neg harr]
    exact ⟨_, rfl⟩

lemma contentEntryStep_eq (spec : SwaggerSpec)
    (acc : List ToolOption × List (String × String)) (entry : String × MediaType)
    (sch : SchemaRef) (comps : Components)
    (hms : entry.2.schema = some sch) (hc : spec.components = some comps) :
    contentEntryStep spec acc entry =
      (match alookup (ExtractSchemaName sch.ref sch.type) comps.schemas with
       | some definition =>
         definition.properties.foldlM
           (contentPropStep sch (ExtractSchemaName sch.ref sch.type)) acc
       | none => Except.ok acc) := by
  unfold contentEntryStep
  rw [hms, hc]

lemma contentEntryStep_ok (spec : SwaggerSpec) (entry : String × MediaType)
    (hsafe : mediaTypeSafe spec.components entry.2 = true) :
    ∀ acc, ∃ acc2, contentEntryStep spec acc entry = Except.ok acc2 := by
  intro acc
  unfold mediaTypeSafe at hsafe
  cases hms : entry.2.schema with
  | none => rw [hms] at hsafe; cases hsafe
  | some sch =>
    rw [hms] at hsafe
    cases hc : spec.components with
    | none => rw [hc] at hsafe; cases hsafe
    | some comps =>
      rw [hc] at hsafe
      simp only [] at hsafe
      rw [contentEntryStep_eq spec acc entry sch comps hms hc]
      cases halk : alookup (ExtractSchemaName sch.ref sch.type) comps.schemas with
      | none => exact ⟨acc, rfl⟩
      | some defn =>
        rw [halk] at hsafe
        simp only [] at hsafe
        apply foldlM_ok_of_all
        intro pp hpp acc3
        apply contentPropStep_ok
        intro harr sp hsp
        have hall := List.all_eq_true.mp hsafe pp hpp
        rw [harr] at hall
        simp only [ne_eq, not_true_eq_false, decide_False, Bool.false_or] at hall
        rw [hsp] at hall
        simp only [] at hall
        cases hits : sp.items with
        | none => rw [hits] at hall; cases hall
        | some itemsSchema =>
          rw [hits] at hall
          simp only [] at hall
          exact ⟨itemsSchema, rfl, fun ip hip => List.all_eq_true.mp hall ip hip⟩

lemma requestBodyStep_ok (spec : SwaggerSpec) (details : Endpoint)
    (hsafe : (match details.requestBody with
              | none => true
              | some rb => rb.content.all (fun entry => mediaTypeSafe spec.components entry.2)) =
      true) :
    ∀ acc, ∃ acc2, requestBodyStep spec details acc = Except.ok acc2 := by
  intro acc
  unfold requestBodyStep
  cases hrb : details.requestBody with
  | none => exact ⟨acc, rfl⟩
  | some rb =>
    rw [hrb] at hsafe
    exact foldlM_ok_of_all _ _
      (fun entry he acc3 =>
        contentEntryStep_ok spec entry (List.all_eq_true.mp hsafe entry he) acc3)
      acc

lemma deriveTool_ok (spec : SwaggerSpec) (apiCfg : ApiConfig) (path method : String)
    (details : Endpoint) (hsafe : endpointSafe spec details = true) :
    ∃ d, deriveTool spec apiCfg path method details = Except.ok d := by
  unfold endpointSafe at hsafe
  rw [Bool.and_eq_true] at hsafe
  obtain ⟨acc1, h1⟩ :=
    foldlM_ok_of_all (bodyParamStep spec.definitions) details.parameters
      (fun param hparam acc =>
        bodyParamStep_ok spec.definitions param (List.all_eq_true.mp hsafe.1 param hparam) acc)
      ((paramOptionsFor "header" details.parameters).1 ++
        (paramOptionsFor "query" details.parameters).1 ++
        (paramOptionsFor "path" details.parameters).1, [])
  obtain ⟨acc2, h2⟩ := requestBodyStep_ok spec details hsafe.2 acc1
  refine ⟨{ name := toolNameFor method path,
            toolOptions := acc2.1 ++
              [ToolOption.withDescription (usageDesc details.summary details.description)],
            pathParams := (paramOptionsFor "path" details.parameters).2,
            queryParams := (paramOptionsFor "query" details.parameters).2,
            headerParams := (paramOptionsFor "header" details.parameters).2,
            body := acc2.2,
            url := computeReqURL spec apiCfg path,
            method := method }, ?_⟩
  unfold deriveTool
  simp only []
  rw [h1, except_ok_bind, h2, except_ok_bind]

lemma retainedOps_mem (incR excR : List (String → Bool)) (incM excM : List String)
    (paths : List (String × List (String × Endpoint))) (op : String × String × Endpoint)
    (hop : op ∈ retainedOps incR excR incM excM paths) :
    ∃ pm ∈ paths, ∃ md ∈ pm.2, op = (pm.1, md.1, md.2) := by
  unfold retainedOps at hop
  obtain ⟨pm, hpm, hin⟩ := List.mem_flatMap.mp hop
  by_cases hi : shouldIncludePath pm.1 incR excR
  · rw [if_pos hi] at hin
    obtain ⟨md, hmd, hin2⟩ := List.mem_flatMap.mp hin
    by_cases hm : shouldIncludeMethod md.1 incM excM
    · rw [if_pos hm] at hin2
      exact ⟨pm, hpm, md, hmd, List.mem_singleton.mp hin2⟩
    · rw [if_neg hm] at hin2
      cases hin2
  · rw [if_neg hi] at hin
    cases hin

/-- Amended C7: derivation completes without a fault on every document
satisfying `specSafe` (all body parameters carry schema objects, all media
types carry schemas with the components table present, and located nested
array schemas carry items objects with present property pointers). -/
theorem deriveTotalOnSafeSpecs (compile : String → Option (String → Bool)) (spec : SwaggerSpec)
    (apiCfg : ApiConfig) (h : specSafe spec = true) :
    ∃ ds, deriveTools compile spec apiCfg = Except.ok ds := by
  unfold deriveTools
  apply mapM_ok_of_all
  intro op hop
  obtain ⟨pm, hpm, md, hmd, heq⟩ := retainedOps_mem _ _ _ _ _ op hop
  have hsafe : endpointSafe spec md.2 = true :=
    List.all_eq_true.mp (List.all_eq_true.mp h pm hpm) md hmd
  subst heq
  exact deriveTool_ok spec apiCfg pm.1 md.1 md.2 hsafe

/-- Witness for the amended C7 at the safe document `specOK`. -/
theorem deriveTotalOnSafeSpecsWitness :
    ∃ ds, deriveTools noCompile specOK cfgNone = Except.ok ds :=
  deriveTotalOnSafeSpecs noCompile specOK cfgNone (by rfl)

/-- Counterexample to C7 as stated: each of the three document shapes named
by the claim drives `LoadSwaggerServer` into a nil pointer dereference — a
runtime panic of the hosting process, not a per-invocation data error.
`specBad` has a body-located parameter without a schema object, `specBad2`
a dialect-2 media type without a schema, and `specBad3` a request body with
the components table absent. -/
theorem derivePanicsOnNilDereference :
    deriveTools noCompile specBad cfgNone = Except.error nilderef ∧
    deriveTools noCompile specBad2 cfgNone = Except.error nilderef ∧
    deriveTools noCompile specBad3 cfgNone = Except.error nilderef :=
  ⟨rfl, rfl, rfl⟩

/-- Invariant preservation through a successful `foldlM`. -/
lemma foldlM_invariant {α β : Type} (f : β → α → Except String β) (P : β → Prop)
    (hP : ∀ acc x acc2, f acc x = Except.ok acc2 → P acc → P acc2) :
    ∀ (l : List α) (acc acc2 : β), List.foldlM f acc l = Except.ok acc2 → P acc → P acc2 := by
  intro l
  induction l with
  | nil => intro acc acc2 h hp; cases h; exact hp
  | cons a l ih =>
    intro acc acc2 h hp
    rw [foldlM_cons] at h
    obtain ⟨acc1, h1, h2⟩ := except_bind_ok _ _ _ h
    exact ih acc1 acc2 h2 (hP acc a acc1 h1 hp)

/-- A property established at a distinguished element of a successful
`foldlM` and preserved by every step holds of the result. -/
lemma foldlM_mem_step {α β : Type} (f : β → α → Except String β) (P : β → Prop) (x0 : α)
    (hkeep : ∀ acc x acc2, f acc x = Except.ok acc2 → P acc → P acc2)
    (hadd : ∀ acc acc2, f acc x0 = Except.ok acc2 → P acc2) :
    ∀ (l : List α) (acc acc2 : β), x0 ∈ l → List.foldlM f acc l = Except.ok acc2 → P acc2 := by
  intro l
  induction l with
  | nil => intro acc acc2 hmem; cases hmem
  | cons a l ih =>
    intro acc acc2 hmem h
    rw [foldlM_cons] at h
    obtain ⟨acc1, h1, h2⟩ := except_bind_ok _ _ _ h
    rcases List.mem_cons.mp hmem with rfl | hmem2
    · exact foldlM_invariant f P hkeep l acc1 acc2 h2 (hadd acc acc1 h1)
    · exact ih acc1 acc2 hmem2 h2

/-- A successful `mapM` contains the image of every element. -/
lemma mapM_mem {α β : Type} (f : α → Except String β) :
    ∀ (l : List α) (ys : List β), l.mapM f = Except.ok ys →
      ∀ x ∈ l, ∃ y ∈ ys, f x = Except.ok y := by
  intro l
  induction l with
  | nil => intro ys h x hx; cases hx
  | cons a l ih =>
    intro ys h x hx
    rw [List.mapM_cons] at h
    obtain ⟨y, hy, h2⟩ := except_bind_ok _ _ _ h
    obtain ⟨ys1, hys1, h3⟩ := except_bind_ok _ _ _ h2
    cases h3
    rcases List.mem_cons.mp hx with rfl | hx2
    · exact ⟨y, List.mem_cons_self y ys1, hy⟩
    · obtain ⟨y2, hy2, hfy2⟩ := ih ys1 hys1 x hx2
      exact ⟨y2, List.mem_cons_of_mem y hy2, hfy2⟩

/-- Keys after a Go map write are the new key or old keys. -/
lemma mapSet_keys {β : Type} (m : List (String × β)) (k : String) (v : β) :
    ∀ k2 ∈ (mapSet m k v).map Prod.fst, k2 = k ∨ k2 ∈ m.map Prod.fst := by
  induction m with
  | nil => intro k2 h; simp [mapSet] at h; exact Or.inl h
  | cons kv m ih =>
    intro k2 h
    unfold mapSet at h
    by_cases hk : k = kv.1
    · rw [if_pos hk] at h
      simp only [List.map_cons, List.mem_cons] at h
      rcases h with rfl | h
      · exact Or.inr (by simp)
      · exact Or.inr (by simp [h])
    · rw [if_neg hk] at h
      simp only [List.map_cons, List.mem_cons] at h
      rcases h with rfl | h
      · exact Or.inr (by simp)
      · rcases ih k2 h with h2 | h2
        · exact Or.inl h2
        · exact Or.inr (by simp [h2])

/-- Invariant preservation through a successful `foldlM`, with membership
of each step's element available. -/
lemma foldlM_invariant_mem {α β : Type} (f : β → α → Except String β) (P : β → Prop) :
    ∀ (l : List α),
      (∀ acc x acc2, x ∈ l → f acc x = Except.ok acc2 → P acc → P acc2) →
      ∀ (acc acc2 : β), List.foldlM f acc l = Except.ok acc2 → P acc → P acc2 := by
  intro l
  induction l with
  | nil => intro _ acc acc2 h hp; cases h; exact hp
  | cons a l ih =>
    intro hP acc acc2 h hp
    rw [foldlM_cons] at h
    obtain ⟨acc1, h1, h2⟩ := except_bind_ok _ _ _ h
    exact ih (fun acc x acc2 hx => hP acc x acc2 (List.mem_cons_of_mem a hx)) acc1 acc2 h2
      (hP acc a acc1 (List.mem_cons_self a l) h1 hp)

/-- As `foldlM_mem_step`, with membership available to the preservation
hypothesis. -/
lemma foldlM_mem_step_mem {α β : Type} (f : β → α → Except String β) (P : β → Prop) (x0 : α) :
    ∀ (l : List α),
      (∀ acc x acc2, x ∈ l → f acc x = Except.ok acc2 → P acc → P acc2) →
      (∀ acc acc2, f acc x0 = Except.ok acc2 → P acc2) →
      ∀ (acc acc2 : β), x0 ∈ l → List.foldlM f acc l = Except.ok acc2 → P acc2 := by
  intro l
  induction l with
  | nil => intro _ _ acc acc2 hmem; cases hmem
  | cons a l ih =>
    intro hkeep hadd acc acc2 hmem h
    rw [foldlM_cons] at h
    obtain ⟨acc1, h1, h2⟩ := except_bind_ok _ _ _ h
    rcases List.mem_cons.mp hmem with rfl | hmem2
    · exact foldlM_invariant_mem f P l
        (fun acc x acc2 hx => hkeep acc x acc2 (List.mem_cons_of_mem _ hx)) acc1 acc2 h2
        (hadd acc acc1 h1)
    · exact ih (fun acc x acc2 hx => hkeep acc x acc2 (List.mem_cons_of_mem _ hx)) hadd acc1
        acc2 hmem2 h2

/-- Shape of a successful dialect-2 body property step. -/
lemma contentPropStep_ok_shape (sch : SchemaRef) (schemaName : String)
    (acc : List ToolOption × List (String × String)) (pp : String × Property)
    (acc2 : List ToolOption × List (String × String))
    (h : contentPropStep sch schemaName acc pp = Except.ok acc2) :
    ∃ opts,
      acc2 = (acc.1 ++ opts ++
          [ToolOption.stringInput pp.1 (bodyPropDesc pp.1 pp.2.type) true],
        mapSet acc.2 pp.1 pp.2.type) ∧
      (pp.2.type = "array" → itemOptions sch schemaName = Except.ok opts) := by
  unfold contentPropStep at h
  by_cases harr : pp.2.type = "array"
  · rw [if_pos harr] at h
    obtain ⟨opts, ho, h2⟩ := except_bind_ok _ _ _ h
    cases h2
    exact ⟨opts, rfl, fun _ => ho⟩
  · rw [if_neg harr] at h
    obtain ⟨opts, ho, h2⟩ := except_bind_ok _ _ _ h
    cases ho
    cases h2
    exact ⟨[], rfl, fun ha => absurd ha harr⟩

/-- The item option registered for a located nested item property. -/
lemma itemOptions_contains (sch : SchemaRef) (schemaName : String) (sp itemsSchema ip : SchemaRef)
    (ipn : String) (opts : List ToolOption)
    (hsp : lookupPtr schemaName sch.properties = some sp)
    (hitems : sp.items = some itemsSchema)
    (hip : (ipn, some ip) ∈ itemsSchema.properties)
    (hok : itemOptions sch schemaName = Except.ok opts) :
    ToolOption.stringInput ipn (itemPropDesc ipn ip.type) true ∈ opts := by
  rw [itemOptions_some sch schemaName sp hsp, hitems] at hok
  obtain ⟨y, hy, hfy⟩ := mapM_mem _ _ _ hok (ipn, some ip) hip
  cases hfy
  exact hy

/-- Extraction of the two fallible stages of `deriveTool`. -/
lemma deriveTool_ok_parts (spec : SwaggerSpec) (apiCfg : ApiConfig) (path method : String)
    (details : Endpoint) (d : ToolDescriptor)
    (h : deriveTool spec apiCfg path method details = Except.ok d) :
    ∃ acc1 acc2,
      List.foldlM (bodyParamStep spec.definitions)
        ((paramOptionsFor "header" details.parameters).1 ++
          (paramOptionsFor "query" details.parameters).1 ++
          (paramOptionsFor "path" details.parameters).1, []) details.parameters =
        Except.ok acc1 ∧
      requestBodyStep spec details acc1 = Except.ok acc2 ∧
      d.toolOptions = acc2.1 ++
        [ToolOption.withDescription (usageDesc details.summary details.description)] ∧
      d.body = acc2.2 := by
  unfold deriveTool at h
  obtain ⟨acc1, h1, h⟩ := except_bind_ok _ _ _ h
  obtain ⟨acc2, h2, h⟩ := except_bind_ok _ _ _ h
  cases h
  exact ⟨acc1, acc2, h1, h2, rfl, rfl⟩

/-- Case analysis of a successful content entry step. -/
lemma contentEntryStep_parts (spec : SwaggerSpec)
    (acc : List ToolOption × List (String × String)) (e : String × MediaType)
    (acc2 : List ToolOption × List (String × String))
    (h : contentEntryStep spec acc e = Except.ok acc2) :
    ∃ sch comps, e.2.schema = some sch ∧ spec.components = some comps ∧
      ((alookup (ExtractSchemaName sch.ref sch.type) comps.schemas = none ∧ acc2 = acc) ∨
        ∃ defn, alookup (ExtractSchemaName sch.ref sch.type) comps.schemas = some defn ∧
          List.foldlM (contentPropStep sch (ExtractSchemaName sch.ref sch.type)) acc
            defn.properties = Except.ok acc2) := by
  cases hms : e.2.schema with
  | none => unfold contentEntryStep at h; rw [hms] at h; cases h
  | some sch =>
    cases hc : spec.components with
    | none => unfold contentEntryStep at h; rw [hms, hc] at h; cases h
    | some comps =>
      rw [contentEntryStep_eq spec acc e sch comps hms hc] at h
      cases halk : alookup (ExtractSchemaName sch.ref sch.type) comps.schemas with
      | none =>
        rw [halk] at h
        cases h
        exact ⟨sch, comps, rfl, rfl, Or.inl ⟨halk, rfl⟩⟩
      | some defn =>
        rw [halk] at h
        exact ⟨sch, comps, rfl, rfl, Or.inr ⟨defn, halk, h⟩⟩

/-- The dialect-1 property fold only appends options. -/
lemma foldl_propStep_mono (props : List (String × Property)) :
    ∀ (acc : List ToolOption × List (String × String)) (x : ToolOption), x ∈ acc.1 →
      x ∈ (props.foldl
        (fun a pp =>
          (a.1 ++ [ToolOption.stringInput pp.1 (bodyPropDesc pp.1 pp.2.type) true],
           mapSet a.2 pp.1 pp.2.type)) acc).1 := by
  induction props with
  | nil => exact fun acc x hx => hx
  | cons pp props ih =>
    intro acc x hx
    exact ih _ x (by simp [hx])

/-- Keys produced by the dialect-1 property fold. -/
lemma foldl_propStep_keys (props : List (String × Property)) :
    ∀ (acc : List ToolOption × List (String × String)) (k : String),
      k ∈ (props.foldl
        (fun a pp =>
          (a.1 ++ [ToolOption.stringInput pp.1 (bodyPropDesc pp.1 pp.2.type) true],
           mapSet a.2 pp.1 pp.2.type)) acc).2.map Prod.fst →
      k ∈ acc.2.map Prod.fst ∨ k ∈ props.map Prod.fst := by
  induction props with
  | nil => exact fun acc k hk => Or.inl hk
  | cons pp props ih =>
    intro acc k hk
    rcases ih _ k hk with hk2 | hk2
    · rcases mapSet_keys acc.2 pp.1 pp.2.type k hk2 with rfl | hk3
      · exact Or.inr (by simp)
      · exact Or.inl hk3
    · exact Or.inr (by simp [hk2])

/-- A successful dialect-1 body parameter step only appends options. -/
lemma bodyParamStep_mono_options (defs : List (String × Definition))
    (acc : List ToolOption × List (String × String)) (param : Parameter)
    (acc2 : List ToolOption × List (String × String))
    (h : bodyParamStep defs acc param = Except.ok acc2) (x : ToolOption) (hx : x ∈ acc.1) :
    x ∈ acc2.1 := by
  by_cases hb : param.paramIn = "body"
  · cases hs : param.schema with
    | none => unfold bodyParamStep at h; rw [if_pos hb, hs] at h; cases h
    | some schema =>
      rw [bodyParamStep_body_some defs acc param schema hb hs] at h
      cases halk : alookup (ExtractSchemaName schema.ref param.type) defs with
      | some definition =>
        rw [halk] at h
        cases h
        exact foldl_propStep_mono definition.properties acc x hx
      | none => rw [halk] at h; cases h; exact hx
  · unfold bodyParamStep at h
    rw [if_neg hb] at h
    cases h
    exact hx

/-- Keys added by a successful dialect-1 body parameter step. -/
lemma bodyParamStep_keys (defs : List (String × Definition))
    (acc : List ToolOption × List (String × String)) (param : Parameter)
    (acc2 : List ToolOption × List (String × String))
    (h : bodyParamStep defs acc param = Except.ok acc2) (k : String)
    (hk : k ∈ acc2.2.map Prod.fst) :
    k ∈ acc.2.map Prod.fst ∨
      ∃ schema definition, param.paramIn = "body" ∧ param.schema = some schema ∧
        alookup (ExtractSchemaName schema.ref param.type) defs = some definition ∧
        k ∈ definition.properties.map Prod.fst := by
  by_cases hb : param.paramIn = "body"
  · cases hs : param.schema with
    | none => unfold bodyParamStep at h; rw [if_pos hb, hs] at h; cases h
    | some schema =>
      rw [bodyParamStep_body_some defs acc param schema hb hs] at h
      cases halk : alookup (ExtractSchemaName schema.ref param.type) defs with
      | some definition =>
        rw [halk] at h
        cases h
        rcases foldl_propStep_keys definition.properties acc k hk with hk2 | hk2
        · exact Or.inl hk2
        · exact Or.inr ⟨schema, definition, hb, rfl, halk, hk2⟩
      | none => rw [halk] at h; cases h; exact Or.inl hk
  · unfold bodyParamStep at h
    rw [if_neg hb] at h
    cases h
    exact Or.inl hk

/-- Dialect-1 resolved property names are declared field names. -/
lemma declared_mem_param (spec : SwaggerSpec) (details : Endpoint) (param : Parameter)
    (schema : SchemaRef) (definition : Definition)
    (hmem : param ∈ details.parameters) (hb : param.paramIn = "body")
    (hs : param.schema = some schema)
    (halk : alookup (ExtractSchemaName schema.ref param.type) spec.definitions =
      some definition)
    (k : String) (hk : k ∈ definition.properties.map Prod.fst) :
    k ∈ declaredFieldNames spec details := by
  unfold declaredFieldNames
  apply List.mem_append_left
  apply List.mem_flatMap.mpr
  refine ⟨param, hmem, ?_⟩
  rw [if_pos hb, hs]
  simp only []
  rw [halk]
  exact hk

/-- Dialect-2 resolved property names are declared field names. -/
lemma declared_mem_content (spec : SwaggerSpec) (details : Endpoint) (rb : RequestBody)
    (e : String × MediaType) (sch : SchemaRef) (comps : Components) (defn : Definition)
    (hrb : details.requestBody = some rb) (he : e ∈ rb.content)
    (hms : e.2.schema = some sch) (hc : spec.components = some comps)
    (halk : alookup (ExtractSchemaName sch.ref sch.type) comps.schemas = some defn)
    (k : String) (hk : k ∈ defn.properties.map Prod.fst) :
    k ∈ declaredFieldNames spec details := by
  unfold declaredFieldNames
  apply List.mem_append_right
  rw [hrb]
  simp only []
  apply List.mem_flatMap.mpr
  refine ⟨e, he, ?_⟩
  rw [hms]
  simp only []
  rw [hc]
  simp only []
  rw [halk]
  exact hk

/-- A successful content property step only appends options. -/
lemma contentPropStep_mono (sch : SchemaRef) (schemaName : String)
    (acc : List ToolOption × List (String × String)) (pp : String × Property)
    (acc2 : List ToolOption × List (String × String))
    (h : contentPropStep sch schemaName acc pp = Except.ok acc2) (x : ToolOption)
    (hx : x ∈ acc.1) : x ∈ acc2.1 := by
  obtain ⟨opts, rfl, -⟩ := contentPropStep_ok_shape sch schemaName acc pp acc2 h
  simp [hx]

/-- A successful content entry step only appends options. -/
lemma contentEntryStep_mono (spec : SwaggerSpec)
    (acc : List ToolOption × List (String × String)) (e : String × MediaType)
    (acc2 : List ToolOption × List (String × String))
    (h : contentEntryStep spec acc e = Except.ok acc2) (x : ToolOption) (hx : x ∈ acc.1) :
    x ∈ acc2.1 := by
  obtain ⟨sch, comps, -, -, hcase⟩ := contentEntryStep_parts spec acc e acc2 h
  rcases hcase with ⟨-, rfl⟩ | ⟨defn, -, hfold⟩
  · exact hx
  · exact foldlM_invariant (contentPropStep sch (ExtractSchemaName sch.ref sch.type))
      (fun a => x ∈ a.1)
      (fun a pp a2 hstep hxa => contentPropStep_mono sch _ a pp a2 hstep x hxa)
      defn.properties acc acc2 hfold hx

/-- The nested item input declared by deriving the operation of the claim. -/
lemma deriveTool_nested_option (spec : SwaggerSpec) (apiCfg : ApiConfig) (path method : String)
    (details : Endpoint) (d : ToolDescriptor) (rb : RequestBody) (ct : String) (mt : MediaType)
    (sch : SchemaRef) (comps : Components) (defn : Definition) (pn : String) (pr : Property)
    (sp itemsSchema ip : SchemaRef) (ipn : String)
    (hrb : details.requestBody = some rb)
    (hct : (ct, mt) ∈ rb.content)
    (hsch : mt.schema = some sch)
    (hcomps : spec.components = some comps)
    (hdefn : alookup (ExtractSchemaName sch.ref sch.type) comps.schemas = some defn)
    (hpr : (pn, pr) ∈ defn.properties)
    (harr : pr.type = "array")
    (hsp : lookupPtr (ExtractSchemaName sch.ref sch.type) sch.properties = some sp)
    (hitems : sp.items = some itemsSchema)
    (hip : (ipn, some ip) ∈ itemsSchema.properties)
    (hok : deriveTool spec apiCfg path method details = Except.ok d) :
    ToolOption.stringInput ipn (itemPropDesc ipn ip.type) true ∈ d.toolOptions := by
  obtain ⟨acc1, acc2, h1, h2, hopts, hbody⟩ :=
    deriveTool_ok_parts spec apiCfg path method details d hok
  unfold requestBodyStep at h2
  rw [hrb] at h2
  have hP : ToolOption.stringInput ipn (itemPropDesc ipn ip.type) true ∈ acc2.1 := by
    refine foldlM_mem_step (contentEntryStep spec)
      (fun a => ToolOption.stringInput ipn (itemPropDesc ipn ip.type) true ∈ a.1) (ct, mt)
      (fun a e a2 hstep hxa => contentEntryStep_mono spec a e a2 hstep _ hxa)
      (fun a a2 hstep => ?_) rb.content acc1 acc2 hct h2
    obtain ⟨sch0, comps0, hms0, hc0, hcase⟩ := contentEntryStep_parts spec a (ct, mt) a2 hstep
    have hsch0 : sch0 = sch := by
      rw [hsch] at hms0
      exact (Option.some.injEq _ _ ▸ hms0.symm : sch0 = sch)
    have hcomps0 : comps0 = comps := by
      rw [hcomps] at hc0
      exact (Option.some.injEq _ _ ▸ hc0.symm : comps0 = comps)
    rw [hsch0, hcomps0] at hcase
    rcases hcase with ⟨hnone, -⟩ | ⟨defn0, hsome, hfold⟩
    · rw [hdefn] at hnone
      cases hnone
    · have hdefn0 : defn0 = defn := by
        rw [hdefn] at hsome
        injection hsome with hh
        exact hh.symm
      rw [hdefn0] at hfold
      have hadd2 : ∀ acc acc3,
          contentPropStep sch (ExtractSchemaName sch.ref sch.type) acc (pn, pr) =
            Except.ok acc3 →
          ToolOption.stringInput ipn (itemPropDesc ipn ip.type) true ∈ acc3.1 := by
        intro acc acc3 hstep2
        obtain ⟨opts, rfl, hio⟩ :=
          contentPropStep_ok_shape sch (ExtractSchemaName sch.ref sch.type) acc (pn, pr) acc3
            hstep2
        have hopt : ToolOption.stringInput ipn (itemPropDesc ipn ip.type) true ∈ opts :=
          itemOptions_contains sch (ExtractSchemaName sch.ref sch.type) sp itemsSchema ip ipn
            opts hsp hitems hip (hio harr)
        simp [hopt]
      exact foldlM_mem_step (contentPropStep sch (ExtractSchemaName sch.ref sch.type))
        (fun acc => ToolOption.stringInput ipn (itemPropDesc ipn ip.type) true ∈ acc.1)
        (pn, pr)
        (fun acc pp acc3 hstep2 hxa => contentPropStep_mono sch _ acc pp acc3 hstep2 _ hxa)
        hadd2 defn.properties a a2 hpr hfold
  rw [hopts]
  exact List.mem_append_left _ hP

/-- Every key of a derived descriptor's body map is a declared field name:
the nested-item loop never contributes to the body map. -/
lemma deriveTool_body_keys (spec : SwaggerSpec) (apiCfg : ApiConfig) (path method : String)
    (details : Endpoint) (d : ToolDescriptor)
    (hok : deriveTool spec apiCfg path method details = Except.ok d) :
    ∀ k ∈ d.body.map Prod.fst, k ∈ declaredFieldNames spec details := by
  obtain ⟨acc1, acc2, h1, h2, hopts, hbody⟩ :=
    deriveTool_ok_parts spec apiCfg path method details d hok
  have hP1 : ∀ k ∈ acc1.2.map Prod.fst, k ∈ declaredFieldNames spec details := by
    refine foldlM_invariant_mem (bodyParamStep spec.definitions)
      (fun a => ∀ k ∈ a.2.map Prod.fst, k ∈ declaredFieldNames spec details)
      details.parameters (fun a param a2 hmem hstep hinv k hk => ?_) _ acc1 h1
      (by intro k hk; cases hk)
    rcases bodyParamStep_keys spec.definitions a param a2 hstep k hk with hk2 | hk2
    · exact hinv k hk2
    · obtain ⟨schema, definition, hb, hs, halk, hk3⟩ := hk2
      exact declared_mem_param spec details param schema definition hmem hb hs halk k hk3
  have hP2 : ∀ k ∈ acc2.2.map Prod.fst, k ∈ declaredFieldNames spec details := by
    unfold requestBodyStep at h2
    cases hrb : details.requestBody with
    | none => rw [hrb] at h2; cases h2; exact hP1
    | some rb =>
      rw [hrb] at h2
      refine foldlM_invariant_mem (contentEntryStep spec)
        (fun a => ∀ k ∈ a.2.map Prod.fst, k ∈ declaredFieldNames spec details)
        rb.content (fun a e a2 hmem hstep hinv k hk => ?_) acc1 acc2 h2 hP1
      obtain ⟨sch0, comps0, hms0, hc0, hcase⟩ := contentEntryStep_parts spec a e a2 hstep
      rcases hcase with ⟨-, rfl⟩ | ⟨defn0, hsome, hfold⟩
      · exact hinv k hk
      · have hstep3 : ∀ acc pp acc3, pp ∈ defn0.properties →
            contentPropStep sch0 (ExtractSchemaName sch0.ref sch0.type) acc pp =
              Except.ok acc3 →
            (∀ k2 ∈ acc.2.map Prod.fst, k2 ∈ declaredFieldNames spec details) →
            (∀ k2 ∈ acc3.2.map Prod.fst, k2 ∈ declaredFieldNames spec details) := by
          intro acc pp acc3 hmem2 hstep2 hinv2 k2 hk2
          obtain ⟨opts, rfl, -⟩ :=
            contentPropStep_ok_shape sch0 (ExtractSchemaName sch0.ref sch0.type) acc pp acc3
              hstep2
          rcases mapSet_keys acc.2 pp.1 pp.2.type k2 hk2 with rfl | hk3
          · exact declared_mem_content spec details rb e sch0 comps0 defn0 hrb hmem hms0 hc0
              hsome pp.1 (List.mem_map.mpr ⟨pp, hmem2, rfl⟩)
          · exact hinv2 k2 hk3
        exact foldlM_invariant_mem
          (contentPropStep sch0 (ExtractSchemaName sch0.ref sch0.type))
          (fun acc => ∀ k ∈ acc.2.map Prod.fst, k ∈ declaredFieldNames spec details)
          defn0.properties hstep3 a a2 hfold hinv k hk
  rw [hbody]
  exact hP2

/-! ## Handler argument-insensitivity and body-key lemmas -/

lemma argString_cons_ne (ipn : String) (v : ArgVal) (args : List (String × ArgVal)) (x : String)
    (hx : x ≠ ipn) : argString ((ipn, v) :: args) x = argString args x := by
  unfold argString
  rw [alookup_cons, if_neg hx]

lemma substPathParams_filter (ipn : String) (v : ArgVal) (args : List (String × ArgVal))
    (ps : List String) (hps : ∀ p ∈ ps, p ≠ ipn) :
    ∀ url, substPathParams ((ipn, v) :: args) ps url = substPathParams args ps url := by
  induction ps with
  | nil => exact fun url => rfl
  | cons p rest ih =>
    intro url
    have hne := hps p (List.mem_cons_self p rest)
    rw [substPathParams, substPathParams, argString_cons_ne ipn v args p hne]
    cases ha : argString args p with
    | none => rfl
    | some v2 => exact ih (fun p2 hp2 => hps p2 (List.mem_cons_of_mem p hp2)) _

lemma setQueryParams_filter (ipn : String) (v : ArgVal) (args : List (String × ArgVal))
    (ps : List String) (hps : ∀ p ∈ ps, p ≠ ipn) :
    ∀ q, setQueryParams ((ipn, v) :: args) ps q = setQueryParams args ps q := by
  induction ps with
  | nil => exact fun q => rfl
  | cons p rest ih =>
    intro q
    have hne := hps p (List.mem_cons_self p rest)
    rw [setQueryParams, setQueryParams, argString_cons_ne ipn v args p hne]
    cases ha : argString args p with
    | none => rfl
    | some v2 => exact ih (fun p2 hp2 => hps p2 (List.mem_cons_of_mem p hp2)) _

lemma queryStep_filter (ipn : String) (v : ArgVal) (args : List (String × ArgVal))
    (ps : List String) (hps : ∀ p ∈ ps, p ≠ ipn) :
    ∀ url, queryStep ((ipn, v) :: args) ps url = queryStep args ps url := by
  intro url
  unfold queryStep
  simp only [setQueryParams_filter ipn v args ps hps]

lemma buildBodyData_filter (ipn : String) (v : ArgVal) (args : List (String × ArgVal))
    (l : List (String × String)) (hl : ∀ pt ∈ l, pt.1 ≠ ipn) :
    ∀ acc, buildBodyData ((ipn, v) :: args) l acc = buildBodyData args l acc := by
  induction l with
  | nil => exact fun acc => rfl
  | cons pt rest ih =>
    intro acc
    have hne := hl pt (List.mem_cons_self pt rest)
    rw [buildBodyData, buildBodyData, argString_cons_ne ipn v args pt.1 hne]
    cases ha : argString args pt.1 with
    | none => rfl
    | some s =>
      simp only []
      cases hc : coerceBodyParam pt.1 pt.2 s with
      | error e => rfl
      | ok gv => exact ih (fun p2 hp2 => hl p2 (List.mem_cons_of_mem pt hp2)) _

lemma addHeaders_filter (ipn : String) (v : ArgVal) (args : List (String × ArgVal))
    (ps : List String) (hps : ∀ p ∈ ps, p ≠ ipn) :
    ∀ h, addHeaders ((ipn, v) :: args) ps h = addHeaders args ps h := by
  induction ps with
  | nil => exact fun h => rfl
  | cons p rest ih =>
    intro h
    have hne := hps p (List.mem_cons_self p rest)
    rw [addHeaders, addHeaders, argString_cons_ne ipn v args p hne]
    cases ha : argString args p with
    | none => rfl
    | some v2 => exact ih (fun p2 hp2 => hps p2 (List.mem_cons_of_mem p hp2)) _

/-- An argument for a name declared nowhere in the descriptor changes
nothing about the handler run. -/
lemma toolHandler_irrelevant_arg (reqPathParam reqQueryParam : List String) (reqURL : String)
    (reqBody : List (String × String)) (reqMethod : String) (reqHeader : List String)
    (apiCfg : ApiConfig) (ipn : String) (v : ArgVal) (args : List (String × ArgVal))
    (sseHeaders : Option (List (String × String)))
    (hpp : ipn ∉ reqPathParam) (hqq : ipn ∉ reqQueryParam)
    (hbb : ipn ∉ reqBody.map Prod.fst) (hhh : ipn ∉ reqHeader) :
    toolHandler reqPathParam reqQueryParam reqURL reqBody reqMethod reqHeader apiCfg
        ((ipn, v) :: args) sseHeaders =
      toolHandler reqPathParam reqQueryParam reqURL reqBody reqMethod reqHeader apiCfg args
        sseHeaders := by
  unfold toolHandler
  simp only [substPathParams_filter ipn v args reqPathParam
      (fun p hp he => hpp (he ▸ hp)),
    queryStep_filter ipn v args reqQueryParam (fun p hp he => hqq (he ▸ hp)),
    buildBodyData_filter ipn v args reqBody
      (fun pt hpt he => hbb (he ▸ List.mem_map.mpr ⟨pt, hpt, rfl⟩)),
    addHeaders_filter ipn v args reqHeader (fun p hp he => hhh (he ▸ hp))]

/-- The apiKey entry fold never touches the request body. -/
lemma apiKeyPartStep_body (st : HttpRequest × List (String × String) × List (String × String))
    (p : String) : (apiKeyPartStep st p).1.body = st.1.body := by
  unfold apiKeyPartStep
  by_cases hp : goTrimSpace p = ""
  · simp [hp]
  · simp only [hp, if_false]
    split
    · split
      · rfl
      · split
        · rfl
        · split
          · rfl
          · split <;> rfl
    · rfl

lemma foldl_apiKey_body (parts : List String) :
    ∀ st, ((parts.foldl apiKeyPartStep st).1).body = st.1.body := by
  induction parts with
  | nil => exact fun st => rfl
  | cons p parts ih =>
    intro st
    rw [List.foldl_cons, ih (apiKeyPartStep st p), apiKeyPartStep_body]

lemma mergeQueryValues_body (r : HttpRequest) (qv : List (String × String)) :
    (mergeQueryValues r qv).body = r.body := by
  unfold mergeQueryValues
  split
  · split <;> rfl
  · rfl

/-- The security injector never touches the request body. -/
lemma setRequestSecurity_body (r : HttpRequest) (s b a t : String) :
    (setRequestSecurity r s b a t).body = r.body := by
  unfold setRequestSecurity
  simp only []
  rw [mergeQueryValues_body]
  split
  · rw [foldl_apiKey_body]
    split
    · split <;> rfl
    · split <;> rfl
  · split
    · split <;> rfl
    · split <;> rfl

/-- Keys of a successfully assembled body come from the accumulator or the
declared body map. -/
lemma buildBodyData_keys (args : List (String × ArgVal)) :
    ∀ (l : List (String × String)) (acc out : List (String × GoVal)),
      buildBodyData args l acc = Except.ok out →
      ∀ k ∈ out.map Prod.fst, k ∈ acc.map Prod.fst ∨ k ∈ l.map Prod.fst := by
  intro l
  induction l with
  | nil =>
    intro acc out h k hk
    cases h
    exact Or.inl hk
  | cons pt rest ih =>
    intro acc out h k hk
    rw [buildBodyData] at h
    cases ha : argString args pt.1 with
    | none => rw [ha] at h; cases h
    | some s =>
      rw [ha] at h
      simp only [] at h
      cases hc : coerceBodyParam pt.1 pt.2 s with
      | error e => rw [hc] at h; cases h
      | ok gv =>
        rw [hc] at h
        simp only [] at h
        rcases ih (mapSet acc pt.1 gv) out h k hk with hk2 | hk2
        · rcases mapSet_keys acc pt.1 gv k hk2 with rfl | hk3
          · exact Or.inr (by simp)
          · exact Or.inl hk3
        · exact Or.inr (by simp [hk2])

/-- A dispatched request's body is exactly the assembled body map. -/
lemma toolHandler_dispatch_body (reqPathParam reqQueryParam : List String) (reqURL : String)
    (reqBody : List (String × String)) (reqMethod : String) (reqHeader : List String)
    (apiCfg : ApiConfig) (args : List (String × ArgVal))
    (sseHeaders : Option (List (String × String))) (req : HttpRequest)
    (h : toolHandler reqPathParam reqQueryParam reqURL reqBody reqMethod reqHeader apiCfg args
        sseHeaders = HandlerOutcome.dispatch req) :
    ∃ bodyData, buildBodyData args reqBody [] = Except.ok bodyData ∧ req.body = bodyData := by
  unfold toolHandler at h
  cases h1 : substPathParams args reqPathParam reqURL with
  | error msg => rw [h1] at h; cases h
  | ok url1 =>
    rw [h1] at h
    simp only [] at h
    cases h2 : queryStep args reqQueryParam url1 with
    | error msg => rw [h2] at h; cases h
    | ok url2 =>
      rw [h2] at h
      simp only [] at h
      cases h3 : buildBodyData args reqBody [] with
      | error msg => rw [h3] at h; cases h
      | ok bodyData =>
        rw [h3] at h
        simp only [] at h
        cases h4 : goURLParse url2 with
        | none => rw [h4] at h; cases h
        | some u2 =>
          rw [h4] at h
          simp only [] at h
          cases h5 : addHeaders args reqHeader [] with
          | error msg => rw [h5] at h; cases h
          | ok hs =>
            rw [h5] at h
            simp only [] at h
            refine ⟨bodyData, rfl, ?_⟩
            cases h
            rw [setRequestSecurity_body]

/-- **C10** For a dialect-2 operation whose resolved body schema has a
property of declared type `array` with a located nested item schema, each
nested item property is declared as a required tool input, but it is never
added to the descriptor's body field mapping (given, as in the source's
intent, that its name is not also an ordinary resolved property name);
consequently, for every invocation, argument values supplied for those
nested item fields are neither type-checked nor included in the serialized
outbound request body. -/
theorem nestedItemFieldsDropped (spec : SwaggerSpec) (apiCfg : ApiConfig)
    (path method : String) (details : Endpoint) (d : ToolDescriptor) (rb : RequestBody)
    (ct : String) (mt : MediaType) (sch : SchemaRef) (comps : Components) (defn : Definition)
    (pn : String) (pr : Property) (sp itemsSchema ip : SchemaRef) (ipn : String)
    (hrb : details.requestBody = some rb)
    (hct : (ct, mt) ∈ rb.content)
    (hsch : mt.schema = some sch)
    (hcomps : spec.components = some comps)
    (hdefn : alookup (ExtractSchemaName sch.ref sch.type) comps.schemas = some defn)
    (hpr : (pn, pr) ∈ defn.properties)
    (harr : pr.type = "array")
    (hsp : lookupPtr (ExtractSchemaName sch.ref sch.type) sch.properties = some sp)
    (hitems : sp.items = some itemsSchema)
    (hip : (ipn, some ip) ∈ itemsSchema.properties)
    (hok : deriveTool spec apiCfg path method details = Except.ok d)
    (hfresh : ipn ∉ declaredFieldNames spec details) :
    ToolOption.stringInput ipn (itemPropDesc ipn ip.type) true ∈ d.toolOptions ∧
    ipn ∉ d.body.map Prod.fst ∧
    (∀ args sseH req,
      toolHandler d.pathParams d.queryParams d.url d.body d.method d.headerParams apiCfg args
          sseH = HandlerOutcome.dispatch req →
      ipn ∉ req.body.map Prod.fst) ∧
    (ipn ∉ d.pathParams → ipn ∉ d.queryParams → ipn ∉ d.headerParams →
      ∀ v args sseH,
        toolHandler d.pathParams d.queryParams d.url d.body d.method d.headerParams apiCfg
            ((ipn, v) :: args) sseH =
          toolHandler d.pathParams d.queryParams d.url d.body d.method d.headerParams apiCfg
            args sseH) := by
  have hkey : ipn ∉ d.body.map Prod.fst :=
    fun hmem => hfresh (deriveTool_body_keys spec apiCfg path method details d hok ipn hmem)
  refine ⟨?_, hkey, ?_, ?_⟩
  · exact deriveTool_nested_option spec apiCfg path method details d rb ct mt sch comps defn
      pn pr sp itemsSchema ip ipn hrb hct hsch hcomps hdefn hpr harr hsp hitems hip hok
  · intro args sseH req hdis hmem
    obtain ⟨bodyData, hbd, hreqb⟩ :=
      toolHandler_dispatch_body d.pathParams d.queryParams d.url d.body d.method
        d.headerParams apiCfg args sseH req hdis
    rw [hreqb] at hmem
    rcases buildBodyData_keys args d.body [] bodyData hbd ipn hmem with h2 | h2
    · cases h2
    · exact hkey h2
  · intro h1 h2 h3 v args sseH
    exact toolHandler_irrelevant_arg d.pathParams d.queryParams d.url d.body d.method
      d.headerParams apiCfg ipn v args sseH h1 h2 hkey h3

/-- Witness for C10 over `specOrder`: the nested item field `qty` is a
declared required input of the derived tool, yet absent from its body map. -/
theorem nestedItemFieldsDroppedWitness :
    ToolOption.stringInput "qty" (itemPropDesc "qty" "integer") true ∈ toolOrder.toolOptions ∧
    "qty" ∉ toolOrder.body.map Prod.fst := by
  obtain ⟨hopt, hkey, -, -⟩ :=
    nestedItemFieldsDropped specOrder cfgNone "/orders" "post" epOrder toolOrder
      ⟨"", false, [("application/json", ⟨some schW⟩)]⟩ "application/json" ⟨some schW⟩ schW
      ⟨[("Order", defnW)]⟩ defnW "lines" ⟨"array"⟩ spW itemsSchemaW
      (SchemaRef.mk "integer" "" [] [] none "" "") "qty"
      rfl (List.mem_singleton.mpr rfl) rfl rfl (by rfl) (by decide) rfl (by rfl) rfl
      (List.mem_singleton.mpr rfl) (by rfl) (by decide)
  exact ⟨hopt, hkey⟩

/-! ## C9: derivation across map-enumeration orders -/

/-- Destructuring a successful `mapM` on a cons cell. -/
lemma mapM_cons_ok {α β : Type} (f : α → Except String β) (x : α) (l : List α)
    (ys : List β) (h : (x :: l).mapM f = Except.ok ys) :
    ∃ y t, f x = Except.ok y ∧ l.mapM f = Except.ok t ∧ ys = y :: t := by
  rw [List.mapM_cons] at h
  obtain ⟨y, hy, h⟩ := except_bind_ok _ _ _ h
  obtain ⟨t, ht, h⟩ := except_bind_ok _ _ _ h
  cases h
  exact ⟨y, t, hy, ht, rfl⟩

/-- A successful `mapM` over a permuted list yields a permuted result (the
per-element images are fixed by `f`). -/
lemma mapM_perm_ok {α β : Type} (f : α → Except String β) {l1 l2 : List α}
    (hp : l1.Perm l2) :
    ∀ ys1 ys2, l1.mapM f = Except.ok ys1 → l2.mapM f = Except.ok ys2 → ys1.Perm ys2 := by
  induction hp with
  | nil =>
    intro ys1 ys2 h1 h2
    cases h1
    cases h2
    exact List.Perm.refl _
  | @cons x l1 l2 hp ih =>
    intro ys1 ys2 h1 h2
    obtain ⟨y, t1, hy1, ht1, rfl⟩ := mapM_cons_ok f x l1 ys1 h1
    obtain ⟨y2, t2, hy2, ht2, rfl⟩ := mapM_cons_ok f x l2 ys2 h2
    rw [hy1] at hy2
    cases hy2
    exact List.Perm.cons y (ih t1 t2 ht1 ht2)
  | @swap x y l =>
    intro ys1 ys2 h1 h2
    obtain ⟨a, t1, ha, ht1, rfl⟩ := mapM_cons_ok f y (x :: l) ys1 h1
    obtain ⟨b, t1a, hb, ht1a, rfl⟩ := mapM_cons_ok f x l t1 ht1
    obtain ⟨b2, t2, hb2, ht2, rfl⟩ := mapM_cons_ok f x (y :: l) ys2 h2
    obtain ⟨a2, t2a, ha2, ht2a, rfl⟩ := mapM_cons_ok f y l t2 ht2
    rw [ha] at ha2
    cases ha2
    rw [hb] at hb2
    cases hb2
    rw [ht1a] at ht2a
    cases ht2a
    exact List.Perm.swap b a t1a
  | @trans l1 l2 l3 hp1 hp2 ih1 ih2 =>
    intro ys1 ys2 h1 h2
    have hmid : ∃ ysm, l2.mapM f = Except.ok ysm := by
      apply mapM_ok_of_all
      intro x hx
      obtain ⟨y, -, hy⟩ := mapM_mem f l1 ys1 h1 x (hp1.mem_iff.mpr hx)
      exact ⟨y, hy⟩
    obtain ⟨ysm, hm⟩ := hmid
    exact (ih1 ys1 ysm h1 hm).trans (ih2 ysm ys2 hm h2)

/-- `retainedOps` under a permutation of the outer path entry list. -/
lemma retainedOps_perm_outer (IR ER : List (String → Bool)) (IM EM : List String)
    {p r : List (String × List (String × Endpoint))} (h : p.Perm r) :
    (retainedOps IR ER IM EM p).Perm (retainedOps IR ER IM EM r) := by
  unfold retainedOps
  exact h.flatMap_right _

/-- `retainedOps` under per-path permutations of the inner method lists. -/
lemma retainedOps_perm_inner (IR ER : List (String → Bool)) (IM EM : List String)
    {r q : List (String × List (String × Endpoint))}
    (h : List.Forall₂ (fun a b => a.1 = b.1 ∧ a.2.Perm b.2) r q) :
    (retainedOps IR ER IM EM r).Perm (retainedOps IR ER IM EM q) := by
  induction h with
  | nil => exact List.Perm.refl _
  | @cons a b r2 q2 hab htail ih =>
    obtain ⟨hk, hperm⟩ := hab
    unfold retainedOps
    rw [List.flatMap_cons, List.flatMap_cons]
    rw [← hk]
    refine List.Perm.append ?_ ih
    by_cases hip : shouldIncludePath a.1 IR ER = true
    · rw [if_pos hip, if_pos hip]
      exact hperm.flatMap_right _
    · rw [if_neg hip, if_neg hip]

/-- Two enumerations of the same paths map retain permuted operation
lists. -/
lemma retainedOps_enum (IR ER : List (String → Bool)) (IM EM : List String)
    {p q : List (String × List (String × Endpoint))} (h : MapEnum p q) :
    (retainedOps IR ER IM EM p).Perm (retainedOps IR ER IM EM q) := by
  obtain ⟨r, hpr, hrq⟩ := h
  exact (retainedOps_perm_outer IR ER IM EM hpr).trans
    (retainedOps_perm_inner IR ER IM EM hrq)

/-- `deriveTool` never reads the paths table of the document. -/
lemma deriveTool_paths_irrel (spec : SwaggerSpec)
    (paths2 : List (String × List (String × Endpoint))) (apiCfg : ApiConfig)
    (path method : String) (details : Endpoint) :
    deriveTool { spec with paths := paths2 } apiCfg path method details =
      deriveTool spec apiCfg path method details := by
  cases spec
  rfl

/-- **C9** (counterexample) Two runs over the same two-path document — its
paths map enumerated in the two orders Go's randomized `range` produces —
both complete, yet register descriptor sequences that differ at every
position (names `get__a`/`get__b` and urls swapped), refuting field-wise
equality of the registered descriptor sequences across runs. -/
theorem deriveOrderCounterexample :
    MapEnum specTwo.paths specTwoSwap.paths ∧
    deriveTools noCompile specTwo cfgNone = Except.ok [toolTwoA, toolTwoB] ∧
    deriveTools noCompile specTwoSwap cfgNone = Except.ok [toolTwoB, toolTwoA] ∧
    toolTwoA ≠ toolTwoB ∧
    ([toolTwoA, toolTwoB] : List ToolDescriptor) ≠ [toolTwoB, toolTwoA] := by
  refine ⟨⟨specTwoSwap.paths, List.Perm.swap _ _ _,
      List.Forall₂.cons ⟨rfl, List.Perm.refl _⟩
        (List.Forall₂.cons ⟨rfl, List.Perm.refl _⟩ List.Forall₂.nil)⟩,
    by rfl, by rfl, by decide, by decide⟩

/-- **C9** (amended) Tool derivation is a pure function of the document and
the per-run enumeration order of its maps, and the order only permutes the
registration sequence: whenever two runs of `LoadSwaggerServer` see the
paths map under two enumeration orders and both complete, they register the
same multiset of descriptors — each retained operation yields the identical
descriptor in both runs — but the registration sequences are permutations
of each other, not equal position by position. -/
theorem deriveEnumPerm (compile : String → Option (String → Bool)) (spec : SwaggerSpec)
    (apiCfg : ApiConfig) (paths2 : List (String × List (String × Endpoint)))
    (ds1 ds2 : List ToolDescriptor) (henum : MapEnum spec.paths paths2)
    (h1 : deriveTools compile spec apiCfg = Except.ok ds1)
    (h2 : deriveTools compile { spec with paths := paths2 } apiCfg = Except.ok ds2) :
    ds1.Perm ds2 := by
  unfold deriveTools at h1 h2
  have hfun : (fun op : String × String × Endpoint =>
      deriveTool { spec with paths := paths2 } apiCfg op.1 op.2.1 op.2.2) =
      (fun op : String × String × Endpoint =>
        deriveTool spec apiCfg op.1 op.2.1 op.2.2) :=
    funext fun op => deriveTool_paths_irrel spec paths2 apiCfg op.1 op.2.1 op.2.2
  rw [hfun] at h2
  have hops : (retainedOpsOf compile spec apiCfg).Perm
      (retainedOpsOf compile { spec with paths := paths2 } apiCfg) := by
    unfold retainedOpsOf
    simp only []
    exact retainedOps_enum _ _ _ _ henum
  exact mapM_perm_ok _ hops ds1 ds2 h1 h2

/-- Witness for C9's amended theorem: the two-path fixture under its two
enumeration orders derives `[toolTwoA, toolTwoB]` and
`[toolTwoB, toolTwoA]`, which are permutations of each other. -/
theorem deriveEnumPermWitness :
    ([toolTwoA, toolTwoB] : List ToolDescriptor).Perm [toolTwoB, toolTwoA] :=
  deriveEnumPerm noCompile specTwo cfgNone specTwoSwap.paths [toolTwoA, toolTwoB]
    [toolTwoB, toolTwoA]
    ⟨specTwoSwap.paths, List.Perm.swap _ _ _,
      List.Forall₂.cons ⟨rfl, List.Perm.refl _⟩
        (List.Forall₂.cons ⟨rfl, List.Perm.refl _⟩ List.Forall₂.nil)⟩
    (by rfl) (by rfl)
